import Mathlib

/-!
Verification of the nuch publish/delete transaction engine.

The Rust sources (`src/fs.rs`, `src/git.rs`, `src/publish.rs`) are embedded
shallowly:

* a filesystem path is the list of its segments (`Path`);
* the filesystem is an association list from paths to nodes, a node being a
  regular file with its byte content (modelled as a `String`) or a directory;
* every fallible OS call is threaded through a fault oracle (`Faults`):
  `copyFails src dst` says whether the OS rejects that copy, `removeFails p`
  whether removing `p` fails.  A copy also fails when its source is not a
  regular file, exactly as `fs::copy` does;
* interactive confirmations and the external git runner are collaborators:
  the answers and the runner outcome are inputs of the model;
* each operation additionally returns the list of filesystem mutations it
  performed (`FsOp`), in order, so that temporal statements ("no removal
  happens before the backup is complete") can be expressed;
* `anyhow` error values are the formatted message strings the code builds.
-/

namespace Nuch

/-- A filesystem path: the list of its segments, root first. -/
abbrev Path := List String

/-- Rendering of a path, used in error messages (`Path::display`). -/
def Path.display (p : Path) : String :=
  "/" ++ String.intercalate "/" p

/-- `Path::parent`: `none` on the root (where Rust's `parent()` is `None`). -/
def Path.parent (p : Path) : Option Path :=
  if p = [] then none else some p.dropLast

/-- `Path::file_name`: the final segment, if any. -/
def Path.fileName (p : Path) : Option String :=
  p.getLast?

/-- Final segment with a default, for paths known to be non-empty
(`file_name().unwrap()`). -/
def Path.baseName (p : Path) : String :=
  p.getLastD ""

/-- `Path::ancestors`: the path itself, then each parent up to the root. -/
def Path.ancestors (p : Path) : List Path :=
  ((List.range (p.length + 1)).map (fun i => p.take i)).reverse

/-- `file_stem` of a file name: everything before the last dot, except that a
name whose only dot is leading keeps the dot (Rust `Path::file_stem`). -/
def stemChars (cs : List Char) : List Char :=
  match cs.reverse.findIdx? (fun c => c = '.') with
  | some i => if i + 1 < cs.length then cs.take (cs.length - i - 1) else cs
  | none => cs

/-- `file_stem` on strings. -/
def stemOf (s : String) : String :=
  String.mk (stemChars s.toList)

/-- A filesystem node: a regular file with its content, or a directory. -/
inductive Node where
  | file (content : String)
  | dir
deriving DecidableEq, Repr

/-- The filesystem: an association list from paths to nodes. -/
abbrev FS := List (Path × Node)

/-- Node stored at `p`, if any. -/
def FS.lookup : FS → Path → Option Node
  | [], _ => none
  | e :: rest, p => if e.1 = p then some e.2 else FS.lookup rest p

/-- `p.exists()`. -/
def FS.existsp (fs : FS) (p : Path) : Bool :=
  (FS.lookup fs p).isSome

/-- `p.is_file()`. -/
def FS.isFile (fs : FS) (p : Path) : Bool :=
  match FS.lookup fs p with
  | some (.file _) => true
  | _ => false

/-- `p.is_dir()`. -/
def FS.isDir (fs : FS) (p : Path) : Bool :=
  match FS.lookup fs p with
  | some .dir => true
  | _ => false

/-- Content of the regular file at `p`, if `p` is a regular file. -/
def FS.content (fs : FS) (p : Path) : Option String :=
  match FS.lookup fs p with
  | some (.file c) => some c
  | _ => none

/-- Drop every binding of `p`. -/
def FS.erase : FS → Path → FS
  | [], _ => []
  | e :: rest, p => if e.1 = p then FS.erase rest p else e :: FS.erase rest p

/-- Write a regular file at `p` (overwriting whatever was there). -/
def FS.setFile (fs : FS) (p : Path) (c : String) : FS :=
  (p, .file c) :: FS.erase fs p

/-- `fs::remove_file` effect. -/
def FS.removeFile (fs : FS) (p : Path) : FS :=
  FS.erase fs p

/-- Create a directory node at every listed path that has no entry yet. -/
def FS.mkdirList : List Path → FS → FS
  | [], fs => fs
  | a :: rest, fs =>
    FS.mkdirList rest (if FS.existsp fs a then fs else (a, Node.dir) :: fs)

/-- `fs::create_dir_all`: create a directory node at `d` and at every missing
ancestor; existing entries are left alone. -/
def FS.mkdirAll (fs : FS) (d : Path) : FS :=
  FS.mkdirList (Path.ancestors d) fs

/-- The immediate entries of directory `d`: recorded paths one segment below
`d` (what `fs::read_dir` yields; never recurses). -/
def FS.entriesIn (fs : FS) (d : Path) : List Path :=
  (fs.map Prod.fst).filter (fun p => decide (p ≠ [] ∧ p.dropLast = d))

/-- Fault oracle for the fallible OS calls. -/
structure Faults where
  copyFails : Path → Path → Bool
  removeFails : Path → Bool

/-- `fs::copy src dst`: needs `src` to be a regular file and the oracle to
allow the copy; overwrites `dst`.  `none` is the `Err` outcome. -/
def fsCopy (flt : Faults) (fs : FS) (src dst : Path) : Option FS :=
  match FS.content fs src with
  | some c => if flt.copyFails src dst then none else some (FS.setFile fs dst c)
  | none => none

/-- Whether `fs::remove_file p` would succeed: `p` must be a regular file and
the oracle must allow the removal. -/
def removeOk (flt : Faults) (fs : FS) (p : Path) : Bool :=
  FS.isFile fs p && !flt.removeFails p

/-- A filesystem mutation performed by the engine, for temporal reasoning. -/
inductive FsOp where
  | copy (src dst : Path)
  | remove (p : Path)
  | mkdirAll (d : Path)
deriving DecidableEq, Repr

/-- `Except.error` payload, if the run failed. -/
def errOf {α : Type} (r : Except String α) : Option String :=
  match r with
  | .error e => some e
  | .ok _ => none

/-! ## `src/fs.rs` -/

/-- Rust `str::to_lowercase` (per-character case mapping). -/
def strToLower (s : String) : String :=
  String.mk (s.toList.map Char.toLower)

/-- Rust `str::starts_with`. -/
def strStartsWith (s pre : String) : Bool :=
  pre.toList.isPrefixOf s.toList

/-- Rust `str::ends_with`. -/
def strEndsWith (s suf : String) : Bool :=
  suf.toList.isSuffixOf s.toList

/-- The recognized media extension set of `matching_images_for_stem`. -/
def imageExts : List String := ["png", "jpg", "jpeg", "gif", "webp", "svg"]

/-- The name test of `matching_images_for_stem`: lower-cased `name` starts
with `stem_lower` and ends with a recognized extension. -/
def matchName (stem_lower name : String) : Bool :=
  let name_lower := strToLower name
  strStartsWith name_lower stem_lower &&
    imageExts.any (fun ext => strEndsWith name_lower ext)

/-- `matching_images_for_stem`: empty list when `dir` is not a directory;
otherwise the regular-file entries of `dir` whose name passes `matchName`. -/
def matching_images_for_stem (stem_lower : String) (dir : Path) (fs : FS) :
    List Path :=
  if FS.isDir fs dir then
    (FS.entriesIn fs dir).filter (fun p =>
      FS.isFile fs p &&
        (match p.getLast? with
         | some name => matchName stem_lower name
         | none => false))
  else []

/-- Outcome of `copy_file_to`: result (the new path on success), the
filesystem, and the mutations performed. -/
structure CpOut where
  res : Except String Path
  fs : FS
  tr : List FsOp

/-- `copy_file_to src dst_dir`: create `dst_dir`, refuse to overwrite
`dst_dir/basename(src)`, otherwise copy. -/
def copy_file_to (flt : Faults) (fs : FS) (src dst_dir : Path) : CpOut :=
  let fs1 := FS.mkdirAll fs dst_dir
  let dst := dst_dir ++ [Path.baseName src]
  if FS.existsp fs1 dst then
    ⟨.error ("Destination already exists: " ++ Path.display dst), fs1,
      [.mkdirAll dst_dir]⟩
  else
    match fsCopy flt fs1 src dst with
    | none =>
        ⟨.error ("Failed to copy " ++ Path.display src ++ " to " ++
            Path.display dst), fs1, [.mkdirAll dst_dir]⟩
    | some fs2 => ⟨.ok dst, fs2, [.mkdirAll dst_dir, .copy src dst]⟩

/-- Outcome of `rollback_remove_files`. -/
structure RbOut where
  fs : FS
  tr : List FsOp
  failures : List String

/-- `rollback_remove_files created`: best-effort removal of every existing
path in `created`, collecting a failure message for each failed removal. -/
def rollback_remove_files (flt : Faults) : FS → List Path → RbOut
  | fs, [] => ⟨fs, [], []⟩
  | fs, f :: rest =>
    if FS.existsp fs f then
      if removeOk flt fs f then
        let o := rollback_remove_files flt (FS.removeFile fs f) rest
        ⟨o.fs, .remove f :: o.tr, o.failures⟩
      else
        let o := rollback_remove_files flt fs rest
        ⟨o.fs, o.tr, ("Failed to remove " ++ Path.display f) :: o.failures⟩
    else rollback_remove_files flt fs rest

/-- Best-effort removal that discards failures
(the `let _ = fs::remove_file(f)` loops). -/
def bestEffortRemoveAll (flt : Faults) : FS → List Path → FS × List FsOp
  | fs, [] => (fs, [])
  | fs, f :: rest =>
    if FS.existsp fs f && removeOk flt fs f then
      let o := bestEffortRemoveAll flt (FS.removeFile fs f) rest
      (o.1, .remove f :: o.2)
    else bestEffortRemoveAll flt fs rest

/-- Outcome of `backup_files_to_temp`. -/
structure BkOut where
  res : Except String Unit
  fs : FS
  tr : List FsOp
  pairs : List (Path × Path)

/-- The copy loop of `backup_files_to_temp`: copy every existing input into
the temp directory, failing on the first copy error; paths that do not exist
are skipped. -/
def backupLoop (flt : Faults) (tmp : Path) : List Path → FS → BkOut
  | [], fs => ⟨.ok (), fs, [], []⟩
  | f :: rest, fs =>
    if FS.existsp fs f then
      let dest := tmp ++ [Path.baseName f]
      match fsCopy flt fs f dest with
      | none => ⟨.error ("Failed to backup " ++ Path.display f), fs, [], []⟩
      | some fs2 =>
        let o := backupLoop flt tmp rest fs2
        ⟨o.res, o.fs, .copy f dest :: o.tr, (f, dest) :: o.pairs⟩
    else backupLoop flt tmp rest fs

/-- `backup_files_to_temp files`: create the fresh temp directory `tmp`
(whose timestamp-based name is an input of the model) and copy every
existing input file into it, returning the (original, backup) pairs. -/
def backup_files_to_temp (flt : Faults) (tmp : Path) (files : List Path)
    (fs : FS) : BkOut :=
  let o := backupLoop flt tmp files (FS.mkdirAll fs tmp)
  ⟨o.res, o.fs, .mkdirAll tmp :: o.tr, o.pairs⟩

/-- Outcome of `restore_from_backups` and `restore_and_cleanup`. -/
structure ResOut where
  res : Except String Unit
  fs : FS
  tr : List FsOp

/-- `restore_from_backups pairs`: copy each still-existing backup back over
its original (overwriting), stopping at the first failed copy. -/
def restore_from_backups (flt : Faults) : List (Path × Path) → FS → ResOut
  | [], fs => ⟨.ok (), fs, []⟩
  | (orig, backup) :: rest, fs =>
    if FS.existsp fs backup then
      match fsCopy flt fs backup orig with
      | none => ⟨.error ("Failed to restore " ++ Path.display orig), fs, []⟩
      | some fs2 =>
        let o := restore_from_backups flt rest fs2
        ⟨o.res, o.fs, .copy backup orig :: o.tr⟩
    else restore_from_backups flt rest fs

/-- The entry-removal loop of `cleanup_backup_dir` over the snapshot of the
directory's entries, ignoring failures. -/
def cleanupFiles (flt : Faults) : List Path → FS → FS × List FsOp
  | [], fs => (fs, [])
  | c :: rest, fs =>
    if removeOk flt fs c then
      let o := cleanupFiles flt rest (FS.removeFile fs c)
      (o.1, .remove c :: o.2)
    else cleanupFiles flt rest fs

/-- `cleanup_backup_dir dir`: best-effort removal of every entry of `dir`
followed by a best-effort `remove_dir dir`; never fails. -/
def cleanup_backup_dir (flt : Faults) (fs : FS) (dir : Path) :
    FS × List FsOp :=
  if FS.isDir fs dir then
    let o := cleanupFiles flt (FS.entriesIn fs dir) fs
    if FS.entriesIn o.1 dir = [] ∧ flt.removeFails dir = false then
      (FS.erase o.1 dir, o.2 ++ [.remove dir])
    else o
  else (fs, [])

/-! ## `src/git.rs` -/

/-- `get_site_root`: the parent of the first ancestor (deepest first) whose
final segment is `content`, else the input's parent.  Both `unwrap()` calls
on `parent()` are modelled by the `Option`: `none` is the panic. -/
def get_site_root (published : Path) : Option Path :=
  match (Path.ancestors published).find?
      (fun anc => Path.fileName anc == some "content") with
  | some anc => Path.parent anc
  | none => Path.parent published

/-- `rel_args`: translate each path to repository-relative form when the site
root is a path prefix of it, else keep it unchanged (`strip_prefix` with its
`unwrap_or_else` fallback). -/
def rel_args (site_root : Path) (paths : List Path) : List Path :=
  paths.map (fun p =>
    if p.take site_root.length = site_root then p.drop site_root.length else p)

/-- Outcomes of the external `git` subprocess calls made by
`run_git_steps`, one invocation's worth. -/
structure GitWorld where
  isRepo : Bool
  revParseErr : String
  hasPreStaged : Bool
  addOk : Bool
  addErr : String
  commitOk : Bool
  commitErr : String
  pushOk : Bool
  pushErr : String

/-- Observable git index actions, in order.  `git add` is modelled as
atomic: a failed `add` stages nothing, so no `add` event is emitted for it. -/
inductive GitEvent where
  | add (paths : List Path)
  | commit (msg : String)
  | push
  | reset (paths : List Path)
deriving DecidableEq, Repr

/-- `run_git_steps site_root commit_msg paths`: check the repo, refuse
pre-staged changes, then add / commit / push, running
`git reset HEAD <paths>` (`reset_paths`) when commit or push fails. -/
def run_git_steps (w : GitWorld) (site_root : Path) (commit_msg : String)
    (paths : List Path) : Except String Unit × List GitEvent :=
  if w.isRepo = false then
    (.error ("Directory " ++ Path.display site_root ++
      " is not a git repository. git rev-parse failed: " ++ w.revParseErr), [])
  else if w.hasPreStaged then
    (.error ("Repository " ++ Path.display site_root ++
      " has pre-existing staged changes; commit or reset them before running nuch."),
      [])
  else
    let rels := rel_args site_root paths
    if w.addOk = false then
      (.error ("git add failed: " ++ w.addErr), [])
    else if w.commitOk = false then
      (.error ("git commit failed: " ++ w.commitErr), [.add rels, .reset rels])
    else if w.pushOk = false then
      (.error ("git push failed: " ++ w.pushErr),
        [.add rels, .commit commit_msg, .reset rels])
    else (.ok (), [.add rels, .commit commit_msg, .push])

/-- Paths with staged changes after a sequence of git index events, starting
from `s`: `add` stages, `reset` unstages, `commit` consumes all staged
changes. -/
def stagedAfter : List GitEvent → List Path → List Path
  | [], s => s
  | .add ps :: rest, s => stagedAfter rest (s ++ ps)
  | .reset ps :: rest, s => stagedAfter rest (s.filter (fun q => decide (q ∉ ps)))
  | .commit _ :: rest, _ => stagedAfter rest []
  | .push :: rest, s => stagedAfter rest s

/-! ## `src/publish.rs` -/

/-- The directory layout a run works against (`AppPaths` as used by
`publish.rs`): working files dir, destination files dir, and the two
optional images dirs. -/
structure AppPaths where
  ready : Path
  published : Path
  working_images : Option Path
  publishing_images : Option Path

/-- Outcome of an engine phase: result, filesystem, mutation trace, and the
list of paths this phase tracks (staged copies / backup copies). -/
structure StepOut where
  res : Except String Unit
  fs : FS
  tr : List FsOp
  created : List Path

/-- Collaborator inputs of one `publish_selected` run: the fault oracle, the
confirmation answer, and the git runner outcome (`none` = success). -/
structure PubEnv where
  flt : Faults
  confirm1 : Bool
  gitResult : Option String

/-- The image-copy loop of `publish_selected`: for each matched image, fail
on an existing destination or a copy error, rolling back everything in
`created`; on success extend `created`. -/
def pubCopyImages (flt : Faults) (dst_images : Path) :
    List Path → FS → List Path → StepOut
  | [], fs, created => ⟨.ok (), fs, [], created⟩
  | p :: rest, fs, created =>
    let dest_img := dst_images ++ [Path.baseName p]
    if FS.existsp fs dest_img then
      let r := rollback_remove_files flt fs created
      if r.failures = [] then
        ⟨.error ("Image already exists at destination " ++
          Path.display dest_img ++ " — aborting"), r.fs, r.tr, created⟩
      else
        ⟨.error ("Image exists and rollback failures: " ++
          String.intercalate "; " r.failures), r.fs, r.tr, created⟩
    else
      match fsCopy flt fs p dest_img with
      | none =>
        let r := rollback_remove_files flt fs created
        if r.failures = [] then
          ⟨.error ("Failed to copy image " ++ Path.display p), r.fs, r.tr,
            created⟩
        else
          ⟨.error ("Failed to copy image " ++ Path.display p ++
            "; rollback failures: " ++ String.intercalate "; " r.failures),
            r.fs, r.tr, created⟩
      | some fs2 =>
        let o := pubCopyImages flt dst_images rest fs2 (created ++ [dest_img])
        ⟨o.res, o.fs, .copy p dest_img :: o.tr, o.created⟩

/-- The destination markdown path of a publish run. -/
def destMdOf (selected : Path) (paths : AppPaths) : Path :=
  paths.published ++ [Path.baseName selected]

/-- The image list a publish run copies: matched in the working images dir
against the lower-cased stem, read after the markdown copy. -/
def publishImageList (selected : Path) (paths : AppPaths) (fs : FS) :
    List Path :=
  match Path.fileName selected, paths.working_images with
  | some fn, some src_images =>
    matching_images_for_stem (strToLower (stemOf fn)) src_images
      (match FS.content fs selected with
       | some c =>
         FS.setFile (FS.mkdirAll fs paths.published)
           (paths.published ++ [fn]) c
       | none => fs)
  | _, _ => []

/-- The post-image phases of `publish_selected`: confirmation, rollback on
decline, git step, rollback on git failure. -/
def publishTail (env : PubEnv) (paths : AppPaths) (fsI : FS)
    (created : List Path) : StepOut :=
  if env.confirm1 = false then
    let r := rollback_remove_files env.flt fsI created
    if r.failures = [] then ⟨.ok (), r.fs, r.tr, created⟩
    else
      ⟨.error ("Aborted by user; rollback failures: " ++
        String.intercalate "; " r.failures), r.fs, r.tr, created⟩
  else
    match get_site_root paths.published with
    | none => ⟨.error "panic: called Option.unwrap on a None value", fsI, [],
        created⟩
    | some _ =>
      match env.gitResult with
      | some e =>
        let r := rollback_remove_files env.flt fsI created
        if r.failures = [] then ⟨.error e, r.fs, r.tr, created⟩
        else
          ⟨.error (e ++ "; rollback failures: " ++
            String.intercalate "; " r.failures), r.fs, r.tr, created⟩
      | none => ⟨.ok (), fsI, [], created⟩

/-- `publish_selected`: refuse an existing destination markdown, copy the
markdown, copy matched images (rolling back on conflict or error), confirm,
then run the git steps (rolling back on decline or git failure). -/
def publish_selected (env : PubEnv) (selected : Path) (paths : AppPaths)
    (fs : FS) : StepOut :=
  match Path.fileName selected with
  | none => ⟨.error "Invalid filename", fs, [], []⟩
  | some filename =>
    if filename = "" then ⟨.error "Invalid filename", fs, [], []⟩
    else
      let dest_md := paths.published ++ [filename]
      if FS.existsp fs dest_md then
        ⟨.error ("Destination markdown already exists: " ++
          Path.display dest_md), fs, [], []⟩
      else
        let fs1 := FS.mkdirAll fs paths.published
        match fsCopy env.flt fs1 selected dest_md with
        | none =>
          ⟨.error ("Failed to copy markdown to " ++ Path.display dest_md),
            fs1, [.mkdirAll paths.published], []⟩
        | some fs2 =>
          let tr0 : List FsOp :=
            [.mkdirAll paths.published, .copy selected dest_md]
          let imgPhase : StepOut :=
            match paths.working_images, paths.publishing_images with
            | some src_images, some dst_images =>
              let stem_lower := strToLower (stemOf filename)
              let images := matching_images_for_stem stem_lower src_images fs2
              let fs3 := FS.mkdirAll fs2 dst_images
              let o := pubCopyImages env.flt dst_images images fs3 [dest_md]
              ⟨o.res, o.fs, .mkdirAll dst_images :: o.tr, o.created⟩
            | _, _ => ⟨.ok (), fs2, [], [dest_md]⟩
          match imgPhase.res with
          | .error e =>
            ⟨.error e, imgPhase.fs, tr0 ++ imgPhase.tr, imgPhase.created⟩
          | .ok _ =>
            let t := publishTail env paths imgPhase.fs imgPhase.created
            ⟨t.res, t.fs, tr0 ++ imgPhase.tr ++ t.tr, t.created⟩

/-- Collaborator inputs of one `delete_selected` run: fault oracle, the two
confirmation answers, the git runner outcome, and the (timestamp-named)
temp backup directory. -/
structure DelEnv where
  flt : Faults
  confirmBackup : Bool
  confirmDelete : Bool
  gitResult : Option String
  tmp : Path

/-- The working-area image-backup loop of `delete_selected`'s step 1: copy
each matched published image into the working images dir, failing (and
best-effort removing everything backed up in this step) on an existing
destination or a copy error. -/
def delBackupImages (flt : Faults) (work_imgs : Path) :
    List Path → FS → List Path → StepOut
  | [], fs, bfs => ⟨.ok (), fs, [], bfs⟩
  | img :: rest, fs, bfs =>
    let dest := work_imgs ++ [Path.baseName img]
    if FS.existsp fs dest then
      let r := bestEffortRemoveAll flt fs bfs
      ⟨.error ("Backup target already exists: " ++ Path.display dest), r.1,
        r.2, bfs⟩
    else
      match fsCopy flt fs img dest with
      | none =>
        let r := bestEffortRemoveAll flt fs bfs
        ⟨.error ("Failed to copy image " ++ Path.display img ++ " to " ++
          Path.display dest), r.1, r.2, bfs⟩
      | some fs2 =>
        let o := delBackupImages flt work_imgs rest fs2 (bfs ++ [dest])
        ⟨o.res, o.fs, .copy img dest :: o.tr, o.created⟩

/-- Step 1 of `delete_selected`: when the working markdown is absent and the
user confirms, copy the markdown (and, when both images dirs are
configured, the matched images) into the working area. -/
def deleteStep1 (env : DelEnv) (selected : Path) (paths : AppPaths)
    (stem_lower : String) (fs : FS) : StepOut :=
  let working_md := paths.ready ++ [Path.baseName selected]
  if FS.existsp fs working_md then ⟨.ok (), fs, [], []⟩
  else if env.confirmBackup = false then ⟨.ok (), fs, [], []⟩
  else
    let c := copy_file_to env.flt fs selected paths.ready
    match c.res with
    | .error e => ⟨.error e, c.fs, c.tr, []⟩
    | .ok copied =>
      match paths.publishing_images, paths.working_images with
      | some pub_imgs, some work_imgs =>
        let images := matching_images_for_stem stem_lower pub_imgs c.fs
        if images = [] then ⟨.ok (), c.fs, c.tr, [copied]⟩
        else
          let fs2 := FS.mkdirAll c.fs work_imgs
          let o := delBackupImages env.flt work_imgs images fs2 [copied]
          ⟨o.res, o.fs, c.tr ++ .mkdirAll work_imgs :: o.tr, o.created⟩
      | _, _ => ⟨.ok (), c.fs, c.tr, [copied]⟩

/-- `cleanup_and_abort`: the declined-deletion helper.  It is a no-op in the
source (`// no-op for now; leaving for symmetry`). -/
def cleanup_and_abort (_backup_dir : Path) (_backups : List (Path × Path))
    (fs : FS) : Except String Unit × FS × List FsOp :=
  (.ok (), fs, [])

/-- `restore_and_cleanup`: restore all backups (propagating a restore
failure immediately), then clean the temp directory. -/
def restore_and_cleanup (flt : Faults) (backups : List (Path × Path))
    (backup_dir : Path) (fs : FS) : ResOut :=
  let r := restore_from_backups flt backups fs
  match r.res with
  | .error e => ⟨.error e, r.fs, r.tr⟩
  | .ok _ =>
    let c := cleanup_backup_dir flt r.fs backup_dir
    ⟨.ok (), c.1, r.tr ++ c.2⟩

/-- The removal loop of `delete_selected`: remove each existing file of the
deletion set; on a removal failure run `restore_and_cleanup` and fail —
with the source's `?`, which makes a restore failure replace the removal
error. -/
def deleteLoop (flt : Faults) (backups : List (Path × Path))
    (backup_dir : Path) : List Path → FS → StepOut
  | [], fs => ⟨.ok (), fs, [], []⟩
  | p :: rest, fs =>
    if FS.existsp fs p then
      if removeOk flt fs p then
        let o := deleteLoop flt backups backup_dir rest (FS.removeFile fs p)
        ⟨o.res, o.fs, .remove p :: o.tr, o.created⟩
      else
        let r := restore_and_cleanup flt backups backup_dir fs
        match r.res with
        | .error e => ⟨.error e, r.fs, r.tr, []⟩
        | .ok _ =>
          ⟨.error ("Failed to remove " ++ Path.display p), r.fs, r.tr, []⟩
    else deleteLoop flt backups backup_dir rest fs

/-- The deletion set of a delete run over filesystem `fs`: the selected file
plus the matched images of the publishing images dir. -/
def deletionSet (selected : Path) (paths : AppPaths) (fs : FS) : List Path :=
  match Path.fileName selected with
  | some fn =>
    selected ::
      (match paths.publishing_images with
       | some pub_imgs =>
         matching_images_for_stem (strToLower (stemOf fn)) pub_imgs fs
       | none => [])
  | none => [selected]

/-- The phases of `delete_selected` after step 1: build the deletion set,
back it up to the temp directory, confirm, remove, git, and on git failure
restore (logging, not raising, a restore failure) and clean up. -/
def deleteMain (env : DelEnv) (selected : Path) (paths : AppPaths)
    (stem_lower : String) (fs : FS) : StepOut :=
  let to_delete : List Path :=
    selected ::
      (match paths.publishing_images with
       | some pub_imgs => matching_images_for_stem stem_lower pub_imgs fs
       | none => [])
  let b := backup_files_to_temp env.flt env.tmp to_delete fs
  match b.res with
  | .error e => ⟨.error e, b.fs, b.tr, []⟩
  | .ok _ =>
    if env.confirmDelete = false then
      let a := cleanup_and_abort env.tmp b.pairs b.fs
      ⟨a.1, a.2.1, b.tr ++ a.2.2, []⟩
    else
      let l := deleteLoop env.flt b.pairs env.tmp to_delete b.fs
      match l.res with
      | .error e => ⟨.error e, l.fs, b.tr ++ l.tr, []⟩
      | .ok _ =>
        match get_site_root paths.published with
        | none =>
          ⟨.error "panic: called Option.unwrap on a None value", l.fs,
            b.tr ++ l.tr, []⟩
        | some _ =>
          match env.gitResult with
          | some e =>
            let r := restore_from_backups env.flt b.pairs l.fs
            let c := cleanup_backup_dir env.flt r.fs env.tmp
            ⟨.error e, c.1, b.tr ++ l.tr ++ r.tr ++ c.2, []⟩
          | none =>
            let c := cleanup_backup_dir env.flt l.fs env.tmp
            ⟨.ok (), c.1, b.tr ++ l.tr ++ c.2, []⟩

/-- `delete_selected`: optional working-area backup, temp backup of the
deletion set, confirmation, removal with restore-on-failure, git step with
restore-on-failure, cleanup. -/
def delete_selected (env : DelEnv) (selected : Path) (paths : AppPaths)
    (fs : FS) : StepOut :=
  match Path.fileName selected with
  | none => ⟨.error "Invalid filename", fs, [], []⟩
  | some filename =>
    if filename = "" then ⟨.error "Invalid filename", fs, [], []⟩
    else
      let stem_lower := strToLower (stemOf filename)
      let s1 := deleteStep1 env selected paths stem_lower fs
      match s1.res with
      | .error e => ⟨.error e, s1.fs, s1.tr, s1.created⟩
      | .ok _ =>
        let m := deleteMain env selected paths stem_lower s1.fs
        ⟨m.res, m.fs, s1.tr ++ m.tr, m.created⟩

/-! ## Basic filesystem lemmas -/

theorem lookup_cons (e : Path × Node) (fs : FS) (q : Path) :
    FS.lookup (e :: fs) q = if e.1 = q then some e.2 else FS.lookup fs q := rfl

theorem lookup_erase_self (fs : FS) (p : Path) :
    FS.lookup (FS.erase fs p) p = none := by
  induction fs with
  | nil => rfl
  | cons e rest ih =>
    simp only [FS.erase]
    by_cases h : e.1 = p
    · rw [if_pos h]; exact ih
    · rw [if_neg h, lookup_cons, if_neg h]; exact ih

theorem lookup_erase_ne (fs : FS) (p q : Path) (h : q ≠ p) :
    FS.lookup (FS.erase fs p) q = FS.lookup fs q := by
  induction fs with
  | nil => rfl
  | cons e rest ih =>
    simp only [FS.erase]
    by_cases h1 : e.1 = p
    · rw [if_pos h1, ih, lookup_cons,
        if_neg (fun hh : e.1 = q => h (hh.symm.trans h1))]
    · rw [if_neg h1, lookup_cons, lookup_cons]
      by_cases h2 : e.1 = q
      · rw [if_pos h2, if_pos h2]
      · rw [if_neg h2, if_neg h2]; exact ih

theorem content_setFile_self (fs : FS) (p : Path) (c : String) :
    FS.content (FS.setFile fs p c) p = some c := by
  simp [FS.content, FS.setFile, lookup_cons]

theorem content_setFile_ne (fs : FS) (p : Path) (c : String) (q : Path)
    (h : q ≠ p) : FS.content (FS.setFile fs p c) q = FS.content fs q := by
  simp only [FS.content, FS.setFile, lookup_cons]
  rw [if_neg (fun hh : p = q => h hh.symm), lookup_erase_ne fs p q h]

theorem existsp_setFile_self (fs : FS) (p : Path) (c : String) :
    FS.existsp (FS.setFile fs p c) p = true := by
  simp [FS.existsp, FS.setFile, lookup_cons]

theorem existsp_setFile_ne (fs : FS) (p : Path) (c : String) (q : Path)
    (h : q ≠ p) : FS.existsp (FS.setFile fs p c) q = FS.existsp fs q := by
  simp only [FS.existsp, FS.setFile, lookup_cons]
  rw [if_neg (fun hh : p = q => h hh.symm), lookup_erase_ne fs p q h]

theorem isFile_setFile_self (fs : FS) (p : Path) (c : String) :
    FS.isFile (FS.setFile fs p c) p = true := by
  simp [FS.isFile, FS.setFile, lookup_cons]

theorem isFile_setFile_ne (fs : FS) (p : Path) (c : String) (q : Path)
    (h : q ≠ p) : FS.isFile (FS.setFile fs p c) q = FS.isFile fs q := by
  simp only [FS.isFile, FS.setFile, lookup_cons]
  rw [if_neg (fun hh : p = q => h hh.symm), lookup_erase_ne fs p q h]

theorem content_removeFile_self (fs : FS) (p : Path) :
    FS.content (FS.removeFile fs p) p = none := by
  simp [FS.content, FS.removeFile, lookup_erase_self]

theorem content_removeFile_ne (fs : FS) (p q : Path) (h : q ≠ p) :
    FS.content (FS.removeFile fs p) q = FS.content fs q := by
  simp only [FS.content, FS.removeFile]
  rw [lookup_erase_ne fs p q h]

theorem existsp_removeFile_self (fs : FS) (p : Path) :
    FS.existsp (FS.removeFile fs p) p = false := by
  simp [FS.existsp, FS.removeFile, lookup_erase_self]

theorem existsp_removeFile_ne (fs : FS) (p q : Path) (h : q ≠ p) :
    FS.existsp (FS.removeFile fs p) q = FS.existsp fs q := by
  simp only [FS.existsp, FS.removeFile]
  rw [lookup_erase_ne fs p q h]

theorem isFile_removeFile_self (fs : FS) (p : Path) :
    FS.isFile (FS.removeFile fs p) p = false := by
  simp [FS.isFile, FS.removeFile, lookup_erase_self]

theorem isFile_removeFile_ne (fs : FS) (p q : Path) (h : q ≠ p) :
    FS.isFile (FS.removeFile fs p) q = FS.isFile fs q := by
  simp only [FS.isFile, FS.removeFile]
  rw [lookup_erase_ne fs p q h]

theorem content_cons_dir (fs : FS) (a q : Path)
    (h : FS.existsp fs a = false) :
    FS.content ((a, Node.dir) :: fs) q = FS.content fs q := by
  by_cases hq : a = q
  · subst hq
    simp only [FS.existsp, Option.isSome] at h
    cases hl : FS.lookup fs a with
    | none => simp [FS.content, lookup_cons, hl]
    | some n => rw [hl] at h; simp at h
  · simp [FS.content, lookup_cons, hq]

theorem isFile_cons_dir (fs : FS) (a q : Path)
    (h : FS.existsp fs a = false) :
    FS.isFile ((a, Node.dir) :: fs) q = FS.isFile fs q := by
  by_cases hq : a = q
  · subst hq
    simp only [FS.existsp, Option.isSome] at h
    cases hl : FS.lookup fs a with
    | none => simp [FS.isFile, lookup_cons, hl]
    | some n => rw [hl] at h; simp at h
  · simp [FS.isFile, lookup_cons, hq]

theorem content_mkdirList (l : List Path) (fs : FS) (q : Path) :
    FS.content (FS.mkdirList l fs) q = FS.content fs q := by
  induction l generalizing fs with
  | nil => rfl
  | cons a rest ih =>
    simp only [FS.mkdirList]
    by_cases h : FS.existsp fs a
    · simp [h, ih]
    · rw [if_neg h, ih, content_cons_dir fs a q (by simpa using h)]

theorem isFile_mkdirList (l : List Path) (fs : FS) (q : Path) :
    FS.isFile (FS.mkdirList l fs) q = FS.isFile fs q := by
  induction l generalizing fs with
  | nil => rfl
  | cons a rest ih =>
    simp only [FS.mkdirList]
    by_cases h : FS.existsp fs a
    · simp [h, ih]
    · rw [if_neg h, ih, isFile_cons_dir fs a q (by simpa using h)]

theorem existsp_mkdirList_mono (l : List Path) (fs : FS) (q : Path)
    (h : FS.existsp fs q = true) :
    FS.existsp (FS.mkdirList l fs) q = true := by
  induction l generalizing fs with
  | nil => exact h
  | cons a rest ih =>
    simp only [FS.mkdirList]
    by_cases ha : FS.existsp fs a
    · rw [if_pos ha]; exact ih fs h
    · rw [if_neg ha]
      refine ih _ ?_
      by_cases hq : a = q
      · simp [FS.existsp, lookup_cons, hq]
      · simpa [FS.existsp, lookup_cons, hq] using h

theorem content_mkdirAll (fs : FS) (d : Path) (q : Path) :
    FS.content (FS.mkdirAll fs d) q = FS.content fs q :=
  content_mkdirList _ fs q

theorem isFile_mkdirAll (fs : FS) (d : Path) (q : Path) :
    FS.isFile (FS.mkdirAll fs d) q = FS.isFile fs q :=
  isFile_mkdirList _ fs q

theorem existsp_mkdirAll_mono (fs : FS) (d : Path) (q : Path)
    (h : FS.existsp fs q = true) :
    FS.existsp (FS.mkdirAll fs d) q = true :=
  existsp_mkdirList_mono _ fs q h

theorem isFile_existsp (fs : FS) (p : Path) (h : FS.isFile fs p = true) :
    FS.existsp fs p = true := by
  simp only [FS.isFile] at h
  cases hl : FS.lookup fs p with
  | none => rw [hl] at h; simp at h
  | some n => simp [FS.existsp, hl]

theorem content_isSome_of_isFile (fs : FS) (p : Path)
    (h : FS.isFile fs p = true) : ∃ c, FS.content fs p = some c := by
  simp only [FS.isFile] at h
  cases hl : FS.lookup fs p with
  | none => rw [hl] at h; simp at h
  | some n =>
    cases n with
    | file c => exact ⟨c, by simp [FS.content, hl]⟩
    | dir => rw [hl] at h; simp at h

theorem isFile_of_content (fs : FS) (p : Path) (c : String)
    (h : FS.content fs p = some c) : FS.isFile fs p = true := by
  simp only [FS.content] at h
  cases hl : FS.lookup fs p with
  | none => rw [hl] at h; simp at h
  | some n =>
    cases n with
    | file c2 => simp [FS.isFile, hl]
    | dir => rw [hl] at h; simp at h

theorem mem_map_fst_iff (fs : FS) (p : Path) :
    p ∈ fs.map Prod.fst ↔ FS.lookup fs p ≠ none := by
  induction fs with
  | nil => simp [FS.lookup]
  | cons e rest ih =>
    simp only [List.map_cons, List.mem_cons, lookup_cons]
    by_cases h : e.1 = p
    · rw [if_pos h]
      exact iff_of_true (Or.inl h.symm) (Option.some_ne_none _)
    · rw [if_neg h]
      constructor
      · intro hm
        rcases hm with hm | hm
        · exact absurd hm.symm h
        · exact ih.mp hm
      · intro hm
        exact Or.inr (ih.mpr hm)

theorem mem_entriesIn (fs : FS) (d p : Path) :
    p ∈ FS.entriesIn fs d ↔
      FS.lookup fs p ≠ none ∧ p ≠ [] ∧ p.dropLast = d := by
  unfold FS.entriesIn
  rw [List.mem_filter, mem_map_fst_iff]
  simp only [decide_eq_true_eq]

/-! ## Repository-root resolution (claims C8 and C10) -/

/-- C8.  For every path `p`: when some ancestor of `p` (including `p`) has
final segment `content`, `get_site_root` returns the parent of such an
ancestor; otherwise it returns `p`'s own parent (both sides being the
`Option`-valued model in which `none` is the source's `unwrap` panic). -/
theorem get_site_root_spec (p : Path) :
    ((∃ anc ∈ Path.ancestors p, Path.fileName anc = some "content") →
      ∃ anc ∈ Path.ancestors p, Path.fileName anc = some "content" ∧
        get_site_root p = Path.parent anc) ∧
    ((¬ ∃ anc ∈ Path.ancestors p, Path.fileName anc = some "content") →
      get_site_root p = Path.parent p) := by
  constructor
  · intro hex
    have hsome :
        ((Path.ancestors p).find?
          (fun anc => Path.fileName anc == some "content")).isSome = true := by
      rw [List.find?_isSome]
      obtain ⟨a, ha, hc⟩ := hex
      exact ⟨a, ha, by simp [hc]⟩
    cases hfind : (Path.ancestors p).find?
        (fun anc => Path.fileName anc == some "content") with
    | none => rw [hfind] at hsome; simp at hsome
    | some anc =>
      refine ⟨anc, List.mem_of_find?_eq_some hfind, ?_, ?_⟩
      · have := List.find?_some hfind
        simpa using this
      · unfold get_site_root
        rw [hfind]
  · intro hnone
    have hfind : (Path.ancestors p).find?
        (fun anc => Path.fileName anc == some "content") = none := by
      rw [List.find?_eq_none]
      intro x hx
      simp only [beq_iff_eq]
      exact fun hc => hnone ⟨x, hx, hc⟩
    unfold get_site_root
    rw [hfind]

/-- Witness for C8 at concrete inputs: a path under a `content` segment, and
one without. -/
theorem get_site_root_spec_witness :
    (∃ anc ∈ Path.ancestors ["srv", "site", "content", "blog"],
      Path.fileName anc = some "content" ∧
      get_site_root ["srv", "site", "content", "blog"] = Path.parent anc) ∧
    get_site_root ["srv", "site", "blog"] =
      Path.parent ["srv", "site", "blog"] :=
  ⟨(get_site_root_spec _).1 (by decide), (get_site_root_spec _).2 (by decide)⟩

/-- C10.  `get_site_root` is partial: at the root path (no parent, no
`content` ancestor) it is `none` — the `unwrap()` panic — and at every path
with a parent it returns a value. -/
theorem get_site_root_domain :
    get_site_root ([] : Path) = none ∧
    ∀ p : Path, p ≠ [] → (get_site_root p).isSome = true := by
  constructor
  · rfl
  · intro p hp
    unfold get_site_root
    cases hfind : (Path.ancestors p).find?
        (fun anc => Path.fileName anc == some "content") with
    | none => simp [Path.parent, hp]
    | some anc =>
      have hpred : Path.fileName anc = some "content" := by
        simpa using List.find?_some hfind
      have hne : anc ≠ [] := by
        intro h
        rw [h] at hpred
        simp [Path.fileName] at hpred
      simp [Path.parent, hne]

/-- Witness for C10 at a concrete non-root path. -/
theorem get_site_root_domain_witness :
    get_site_root ([] : Path) = none ∧
    (get_site_root ["home"]).isSome = true :=
  ⟨get_site_root_domain.1, get_site_root_domain.2 ["home"] (by decide)⟩

/-! ## Asset matcher (claim C7) -/

/-- C7.  `matching_images_for_stem`, applied to the lower-cased stem as its
callers do, returns the empty list whenever `dir` is not an (existing)
directory, and otherwise exactly the immediate entries of `dir` that are
regular files whose lower-cased name starts with the lower-cased stem and
ends with one of `png`, `jpg`, `jpeg`, `gif`, `webp`, `svg`; every returned
path sits directly in `dir` (no recursion). -/
theorem matching_images_spec (stem : String) (dir : Path) (fs : FS) :
    (FS.isDir fs dir = false →
      matching_images_for_stem (strToLower stem) dir fs = []) ∧
    (∀ p : Path, p ∈ matching_images_for_stem (strToLower stem) dir fs ↔
      FS.isDir fs dir = true ∧ FS.isFile fs p = true ∧ p.dropLast = dir ∧
      ∃ name, p.getLast? = some name ∧
        strStartsWith (strToLower name) (strToLower stem) = true ∧
        ∃ ext ∈ imageExts, strEndsWith (strToLower name) ext = true) := by
  unfold matching_images_for_stem
  by_cases hd : FS.isDir fs dir
  · rw [if_pos hd]
    refine ⟨fun hf => absurd hd (by simp [hf]), fun p => ?_⟩
    rw [List.mem_filter, mem_entriesIn]
    constructor
    · rintro ⟨⟨hlk, hne, hdrop⟩, hf⟩
      rw [Bool.and_eq_true] at hf
      obtain ⟨hisf, hname⟩ := hf
      cases hlast : p.getLast? with
      | none => rw [hlast] at hname; simp at hname
      | some name =>
        rw [hlast] at hname
        have hm : matchName (strToLower stem) name = true := hname
        simp only [matchName, Bool.and_eq_true, List.any_eq_true] at hm
        obtain ⟨hstart, ext, hext, hend⟩ := hm
        exact ⟨hd, hisf, hdrop, name, rfl, hstart, ext, hext, hend⟩
    · rintro ⟨-, hisf, hdrop, name, hlast, hstart, ext, hext, hend⟩
      have hne : p ≠ [] := by
        intro h
        rw [h] at hlast
        simp at hlast
      refine ⟨⟨?_, hne, hdrop⟩, ?_⟩
      · intro hnone
        simp [FS.isFile, hnone] at hisf
      · rw [Bool.and_eq_true]
        refine ⟨hisf, ?_⟩
        rw [hlast]
        have hm : matchName (strToLower stem) name = true := by
          simp only [matchName, Bool.and_eq_true, List.any_eq_true]
          exact ⟨hstart, ext, hext, hend⟩
        exact hm
  · have hd2 : FS.isDir fs dir = false := by simpa using hd
    rw [if_neg hd]
    refine ⟨fun _ => rfl, fun p => ?_⟩
    simp only [List.not_mem_nil, false_iff]
    rintro ⟨hdt, -⟩
    rw [hd2] at hdt
    exact Bool.false_ne_true hdt

/-- Witness for C7: a non-directory path yields the empty list. -/
theorem matching_images_spec_witness :
    matching_images_for_stem (strToLower "post") ["nodir"] ([] : FS) = [] :=
  (matching_images_spec "post" ["nodir"] []).1 (by decide)

/-! ## Version-control runner (claim C9) -/

theorem filter_not_mem_self (l : List Path) :
    l.filter (fun q => decide (q ∉ l)) = [] := by
  rw [List.filter_eq_nil_iff]
  intro a ha
  simp [ha]

/-- C9.  `run_git_steps` on success stages exactly the given paths in
repository-relative form, commits with the given message, then pushes; on
every failure the staged-changes delta of its trace is empty (a failed
`add` stages nothing; a failed commit or push is followed by
`reset_paths`), and the stage/commit/push failures surface the captured
diagnostic text. -/
theorem run_git_steps_spec (w : GitWorld) (site_root : Path) (msg : String)
    (paths : List Path) :
    ((run_git_steps w site_root msg paths).1 = .ok () →
      (run_git_steps w site_root msg paths).2 =
        [.add (rel_args site_root paths), .commit msg, .push]) ∧
    (∀ e, (run_git_steps w site_root msg paths).1 = .error e →
      stagedAfter (run_git_steps w site_root msg paths).2 [] = []) ∧
    (w.isRepo = true → w.hasPreStaged = false → w.addOk = false →
      (run_git_steps w site_root msg paths).1 =
        .error ("git add failed: " ++ w.addErr)) ∧
    (w.isRepo = true → w.hasPreStaged = false → w.addOk = true →
      w.commitOk = false →
      (run_git_steps w site_root msg paths).1 =
        .error ("git commit failed: " ++ w.commitErr) ∧
      (run_git_steps w site_root msg paths).2 =
        [.add (rel_args site_root paths), .reset (rel_args site_root paths)]) ∧
    (w.isRepo = true → w.hasPreStaged = false → w.addOk = true →
      w.commitOk = true → w.pushOk = false →
      (run_git_steps w site_root msg paths).1 =
        .error ("git push failed: " ++ w.pushErr) ∧
      (run_git_steps w site_root msg paths).2 =
        [.add (rel_args site_root paths), .commit msg,
          .reset (rel_args site_root paths)]) := by
  refine ⟨?_, ?_, ?_, ?_, ?_⟩
  · intro h
    simp only [run_git_steps] at h ⊢
    split_ifs at h ⊢
    simp_all
  · intro e h
    simp only [run_git_steps] at h ⊢
    split_ifs at h ⊢ <;>
      simp_all [stagedAfter, filter_not_mem_self]
  · intro h1 h2 h3
    simp [run_git_steps, h1, h2, h3]
  · intro h1 h2 h3 h4
    simp [run_git_steps, h1, h2, h3, h4]
  · intro h1 h2 h3 h4 h5
    simp [run_git_steps, h1, h2, h3, h4, h5]

/-- Witness for C9: a successful world produces add/commit/push, and a
commit-failure world surfaces the captured diagnostic. -/
theorem run_git_steps_spec_witness :
    (run_git_steps ⟨true, "", false, true, "", true, "", true, ""⟩ ["r"] "m"
        [["r", "content", "a.md"]]).2 =
      [.add (rel_args ["r"] [["r", "content", "a.md"]]), .commit "m", .push] ∧
    (run_git_steps ⟨true, "", false, true, "", false, "ce", true, ""⟩ ["r"]
        "m" [["r", "content", "a.md"]]).1 =
      .error ("git commit failed: " ++ "ce") :=
  ⟨(run_git_steps_spec _ _ _ _).1 rfl,
   ((run_git_steps_spec _ _ _ _).2.2.2.1 rfl rfl rfl rfl).1⟩

/-! ## Publish: destination conflict (claim C4) -/

/-- C4.  When the destination markdown path already exists, Publish fails
with the destination-conflict error and performs no filesystem mutation at
all: the filesystem is returned unchanged and the mutation trace is empty. -/
theorem publish_dest_conflict (env : PubEnv) (selected : Path)
    (paths : AppPaths) (fs : FS) (fn : String)
    (hfn : Path.fileName selected = some fn) (hne : fn ≠ "")
    (hex : FS.existsp fs (paths.published ++ [fn]) = true) :
    publish_selected env selected paths fs =
      ⟨.error ("Destination markdown already exists: " ++
        Path.display (paths.published ++ [fn])), fs, [], []⟩ := by
  simp [publish_selected, hfn, hne, hex]

/-- Witness for C4 at a concrete pre-existing destination markdown. -/
theorem publish_dest_conflict_witness :
    publish_selected ⟨⟨fun _ _ => false, fun _ => false⟩, true, none⟩
        ["w", "a.md"] ⟨["w"], ["p"], none, none⟩
        [(["p", "a.md"], Node.file "x"), (["w", "a.md"], Node.file "y")] =
      ⟨.error ("Destination markdown already exists: " ++
        Path.display (["p"] ++ ["a.md"])),
        [(["p", "a.md"], Node.file "x"), (["w", "a.md"], Node.file "y")],
        [], []⟩ :=
  publish_dest_conflict _ _ _ _ "a.md" rfl (by decide) (by decide)

/-! ## Small copy and path lemmas -/

theorem baseName_of_fileName (p : Path) (fn : String)
    (h : Path.fileName p = some fn) : Path.baseName p = fn := by
  unfold Path.fileName at h
  unfold Path.baseName
  rw [List.getLastD_eq_getLast?, h]
  rfl

theorem content_none_of_not_existsp (fs : FS) (p : Path)
    (h : FS.existsp fs p = false) : FS.content fs p = none := by
  simp only [FS.existsp, Option.isSome] at h
  cases hl : FS.lookup fs p with
  | none => simp [FS.content, hl]
  | some n => rw [hl] at h; simp at h

theorem existsp_setFile_mono (fs : FS) (p : Path) (c : String) (q : Path)
    (h : FS.existsp fs q = true) :
    FS.existsp (FS.setFile fs p c) q = true := by
  by_cases hq : q = p
  · rw [hq]; exact existsp_setFile_self fs p c
  · rw [existsp_setFile_ne fs p c q hq]; exact h

theorem fsCopy_eq_some (flt : Faults) (fs : FS) (src dst : Path) (fs2 : FS)
    (h : fsCopy flt fs src dst = some fs2) :
    ∃ c, FS.content fs src = some c ∧ flt.copyFails src dst = false ∧
      fs2 = FS.setFile fs dst c := by
  unfold fsCopy at h
  cases hc : FS.content fs src with
  | none => rw [hc] at h; exact absurd h (by simp)
  | some c =>
    rw [hc] at h
    dsimp only at h
    by_cases hf : flt.copyFails src dst
    · rw [if_pos hf] at h; exact absurd h (by simp)
    · rw [if_neg hf] at h
      refine ⟨c, rfl, by simpa using hf, ?_⟩
      injection h with h2
      exact h2.symm

/-! ## Rollback lemmas (`rollback_remove_files`) -/

theorem rb_no_create (flt : Faults) (created : List Path) :
    ∀ (fs : FS) (q : Path), FS.existsp fs q = false →
      FS.existsp (rollback_remove_files flt fs created).fs q = false := by
  induction created with
  | nil => intro fs q h; exact h
  | cons f rest ih =>
    intro fs q h
    simp only [rollback_remove_files]
    by_cases he : FS.existsp fs f
    · rw [if_pos he]
      by_cases hok : removeOk flt fs f
      · rw [if_pos hok]
        refine ih _ q ?_
        by_cases hq : q = f
        · rw [hq, existsp_removeFile_self]
        · rw [existsp_removeFile_ne fs f q hq]; exact h
      · rw [if_neg hok]; exact ih fs q h
    · rw [if_neg he]; exact ih fs q h

theorem rb_no_new (flt : Faults) (created : List Path) :
    ∀ (fs : FS) (q : Path),
      FS.isFile (rollback_remove_files flt fs created).fs q = true →
      FS.isFile fs q = true := by
  induction created with
  | nil => intro fs q h; exact h
  | cons f rest ih =>
    intro fs q h
    simp only [rollback_remove_files] at h
    by_cases he : FS.existsp fs f
    · rw [if_pos he] at h
      by_cases hok : removeOk flt fs f
      · rw [if_pos hok] at h
        have h2 := ih _ q h
        by_cases hq : q = f
        · rw [hq, isFile_removeFile_self] at h2; exact absurd h2 (by simp)
        · rw [isFile_removeFile_ne fs f q hq] at h2; exact h2
      · rw [if_neg hok] at h; exact ih fs q h
    · rw [if_neg he] at h; exact ih fs q h

theorem rb_removes (flt : Faults) (created : List Path) :
    ∀ (fs : FS) (c : Path), c ∈ created → flt.removeFails c = false →
      (FS.isFile fs c = true ∨ FS.existsp fs c = false) →
      FS.existsp (rollback_remove_files flt fs created).fs c = false := by
  induction created with
  | nil => intro fs c hc; exact absurd hc (List.not_mem_nil c)
  | cons f rest ih =>
    intro fs c hc hrf hcf
    simp only [rollback_remove_files]
    by_cases he : FS.existsp fs f
    · rw [if_pos he]
      by_cases hok : removeOk flt fs f
      · rw [if_pos hok]
        by_cases hcfq : c = f
        · subst hcfq
          exact rb_no_create flt rest _ c (existsp_removeFile_self fs c)
        · rcases List.mem_cons.mp hc with hcc | hcc
          · exact absurd hcc hcfq
          · refine ih _ c hcc hrf ?_
            rcases hcf with hcf | hcf
            · exact Or.inl (by rw [isFile_removeFile_ne fs f c hcfq]; exact hcf)
            · exact Or.inr (by rw [existsp_removeFile_ne fs f c hcfq]; exact hcf)
      · rw [if_neg hok]
        by_cases hcfq : c = f
        · subst hcfq
          rcases hcf with hcf | hcf
          · exact absurd (by simp [removeOk, hcf, hrf]) hok
          · exact absurd he (by simp [hcf])
        · rcases List.mem_cons.mp hc with hcc | hcc
          · exact absurd hcc hcfq
          · exact ih fs c hcc hrf hcf
    · rw [if_neg he]
      by_cases hcfq : c = f
      · subst hcfq
        exact rb_no_create flt rest fs c (by simpa using he)
      · rcases List.mem_cons.mp hc with hcc | hcc
        · exact absurd hcc hcfq
        · exact ih fs c hcc hrf hcf

/-! ## Publish image-loop lemmas -/

theorem fsCopy_of_copyFails (flt : Faults) (fs : FS) (src dst : Path)
    (h : flt.copyFails src dst = true) : fsCopy flt fs src dst = none := by
  unfold fsCopy
  cases FS.content fs src with
  | none => rfl
  | some c => simp [h]

theorem pubCopyImages_err (flt : Faults) (dst : Path) (fs0 : FS) :
    ∀ (images : List Path) (fs : FS) (created : List Path),
      (∀ q, FS.isFile fs q = true → FS.isFile fs0 q = true ∨ q ∈ created) →
      (∀ c ∈ created, FS.isFile fs c = true) →
      ∀ e, (pubCopyImages flt dst images fs created).res = .error e →
      ∀ q, FS.isFile fs0 q = false → flt.removeFails q = false →
        FS.isFile (pubCopyImages flt dst images fs created).fs q = false := by
  intro images
  induction images with
  | nil =>
    intro fs created hcov hcf e he
    simp [pubCopyImages] at he
  | cons p rest ih =>
    intro fs created hcov hcf e he q hq0 hqr
    simp only [pubCopyImages] at he ⊢
    by_cases hex : FS.existsp fs (dst ++ [Path.baseName p])
    · rw [if_pos hex] at he ⊢
      have hgen :
          FS.isFile (rollback_remove_files flt fs created).fs q = false := by
        cases hfin : FS.isFile (rollback_remove_files flt fs created).fs q
        · rfl
        · have hfsq := rb_no_new flt created fs q hfin
          rcases hcov q hfsq with hin | hin
          · exact absurd hin (by simp [hq0])
          · have := rb_removes flt created fs q hin hqr (Or.inl hfsq)
            have h2 := isFile_existsp _ q hfin
            rw [this] at h2
            exact absurd h2 (by simp)
      by_cases hfl : (rollback_remove_files flt fs created).failures = []
      · rw [if_pos hfl] at he ⊢; exact hgen
      · rw [if_neg hfl] at he ⊢; exact hgen
    · rw [if_neg hex] at he ⊢
      cases hcp : fsCopy flt fs p (dst ++ [Path.baseName p]) with
      | none =>
        rw [hcp] at he
        dsimp only at he ⊢
        have hgen :
            FS.isFile (rollback_remove_files flt fs created).fs q = false := by
          cases hfin : FS.isFile (rollback_remove_files flt fs created).fs q
          · rfl
          · have hfsq := rb_no_new flt created fs q hfin
            rcases hcov q hfsq with hin | hin
            · exact absurd hin (by simp [hq0])
            · have := rb_removes flt created fs q hin hqr (Or.inl hfsq)
              have h2 := isFile_existsp _ q hfin
              rw [this] at h2
              exact absurd h2 (by simp)
        by_cases hfl : (rollback_remove_files flt fs created).failures = []
        · rw [if_pos hfl] at he ⊢; exact hgen
        · rw [if_neg hfl] at he ⊢; exact hgen
      | some fs2 =>
        rw [hcp] at he
        dsimp only at he ⊢
        obtain ⟨c, hc⟩ : ∃ c, fs2 = FS.setFile fs (dst ++ [Path.baseName p]) c := by
          unfold fsCopy at hcp
          cases hcnt : FS.content fs p with
          | none => rw [hcnt] at hcp; exact absurd hcp (by simp)
          | some c0 =>
            rw [hcnt] at hcp
            dsimp only at hcp
            by_cases hflc : flt.copyFails p (dst ++ [Path.baseName p])
            · rw [if_pos hflc] at hcp; exact absurd hcp (by simp)
            · rw [if_neg hflc] at hcp
              exact ⟨c0, by injection hcp with h2; exact h2.symm⟩
        subst hc
        refine ih _ (created ++ [dst ++ [Path.baseName p]]) ?_ ?_ e he q hq0 hqr
        · intro r hr
          by_cases hrq : r = dst ++ [Path.baseName p]
          · exact Or.inr (List.mem_append.mpr (Or.inr (by simp [hrq])))
          · rw [isFile_setFile_ne fs _ c r hrq] at hr
            rcases hcov r hr with h2 | h2
            · exact Or.inl h2
            · exact Or.inr (List.mem_append.mpr (Or.inl h2))
        · intro r hr
          rcases List.mem_append.mp hr with h2 | h2
          · by_cases hrq : r = dst ++ [Path.baseName p]
            · rw [hrq]; exact isFile_setFile_self fs _ c
            · rw [isFile_setFile_ne fs _ c r hrq]; exact hcf r h2
          · have : r = dst ++ [Path.baseName p] := by simpa using h2
            rw [this]; exact isFile_setFile_self fs _ c

theorem pubCopyImages_fails (flt : Faults) (dst : Path) :
    ∀ (images : List Path) (fs : FS) (created : List Path),
      (∃ p ∈ images, flt.copyFails p (dst ++ [Path.baseName p]) = true ∨
        FS.existsp fs (dst ++ [Path.baseName p]) = true) →
      ∃ e, (pubCopyImages flt dst images fs created).res = .error e := by
  intro images
  induction images with
  | nil =>
    intro fs created hbad
    obtain ⟨p, hp, -⟩ := hbad
    exact absurd hp (List.not_mem_nil p)
  | cons p rest ih =>
    intro fs created hbad
    simp only [pubCopyImages]
    by_cases hex : FS.existsp fs (dst ++ [Path.baseName p])
    · rw [if_pos hex]
      by_cases hfl : (rollback_remove_files flt fs created).failures = []
      · rw [if_pos hfl]; exact ⟨_, rfl⟩
      · rw [if_neg hfl]; exact ⟨_, rfl⟩
    · rw [if_neg hex]
      cases hcp : fsCopy flt fs p (dst ++ [Path.baseName p]) with
      | none =>
        dsimp only
        by_cases hfl : (rollback_remove_files flt fs created).failures = []
        · rw [if_pos hfl]; exact ⟨_, rfl⟩
        · rw [if_neg hfl]; exact ⟨_, rfl⟩
      | some fs2 =>
        dsimp only
        obtain ⟨w, hw, hwf⟩ := hbad
        rcases List.mem_cons.mp hw with hwp | hwp
        · subst hwp
          rcases hwf with hwf | hwf
          · rw [fsCopy_of_copyFails flt fs w _ hwf] at hcp
            exact absurd hcp (by simp)
          · exact absurd hwf hex
        · obtain ⟨c, -, -, hc2⟩ := fsCopy_eq_some flt fs p _ fs2 hcp
          subst hc2
          refine ih _ (created ++ [dst ++ [Path.baseName p]]) ⟨w, hwp, ?_⟩
          rcases hwf with hwf | hwf
          · exact Or.inl hwf
          · exact Or.inr (existsp_setFile_mono fs _ c _ hwf)

/-! ## Publish: rollback on image-copy failure (claim C1) -/

/-- C1 (amended).  When an image copy fails during Publish — the fault
oracle rejects the copy of some matched image, or the image's destination
already exists before the run — Publish fails, and every path that was not
a regular file before the call and whose removal the oracle does not
reject is not a regular file after the call either — in particular the
copied destination markdown is removed whenever its removal succeeds.
(The original claim's unconditional "the destination markdown no longer
exists" fails when the rollback removal itself fails; see the
counterexample.) -/
theorem publish_image_failure_rolls_back (env : PubEnv) (selected : Path)
    (paths : AppPaths) (fs : FS) (fn : String)
    (src_images dst_images : Path)
    (hfn : Path.fileName selected = some fn) (hne : fn ≠ "")
    (hwi : paths.working_images = some src_images)
    (hpi : paths.publishing_images = some dst_images)
    (hnoex : FS.existsp fs (paths.published ++ [fn]) = false)
    (hsel : FS.isFile fs selected = true)
    (hcopymd : env.flt.copyFails selected (paths.published ++ [fn]) = false)
    (hbad : ∃ p ∈ publishImageList selected paths fs,
        env.flt.copyFails p (dst_images ++ [Path.baseName p]) = true ∨
        FS.existsp fs (dst_images ++ [Path.baseName p]) = true) :
    (∃ e, (publish_selected env selected paths fs).res = .error e) ∧
    ∀ q, FS.isFile fs q = false → env.flt.removeFails q = false →
      FS.isFile (publish_selected env selected paths fs).fs q = false := by
  obtain ⟨c, hc⟩ := content_isSome_of_isFile fs selected hsel
  have hc1 : FS.content (FS.mkdirAll fs paths.published) selected = some c := by
    rw [content_mkdirAll]; exact hc
  have hcopy : fsCopy env.flt (FS.mkdirAll fs paths.published) selected
      (paths.published ++ [fn]) =
      some (FS.setFile (FS.mkdirAll fs paths.published)
        (paths.published ++ [fn]) c) := by
    unfold fsCopy
    rw [hc1]
    simp [hcopymd]
  have himg : publishImageList selected paths fs =
      matching_images_for_stem (strToLower (stemOf fn)) src_images
        (FS.setFile (FS.mkdirAll fs paths.published)
          (paths.published ++ [fn]) c) := by
    simp [publishImageList, hfn, hwi, hc]
  rw [himg] at hbad
  have hbad2 : ∃ p ∈ matching_images_for_stem (strToLower (stemOf fn))
      src_images (FS.setFile (FS.mkdirAll fs paths.published)
        (paths.published ++ [fn]) c),
      env.flt.copyFails p (dst_images ++ [Path.baseName p]) = true ∨
      FS.existsp (FS.mkdirAll (FS.setFile (FS.mkdirAll fs paths.published)
          (paths.published ++ [fn]) c) dst_images)
        (dst_images ++ [Path.baseName p]) = true := by
    obtain ⟨p, hp, hpf⟩ := hbad
    refine ⟨p, hp, ?_⟩
    rcases hpf with hpf | hpf
    · exact Or.inl hpf
    · exact Or.inr (existsp_mkdirAll_mono _ _ _ (existsp_setFile_mono _ _ _ _
        (existsp_mkdirAll_mono _ _ _ hpf)))
  obtain ⟨e, hoe⟩ := pubCopyImages_fails env.flt dst_images _
    (FS.mkdirAll (FS.setFile (FS.mkdirAll fs paths.published)
      (paths.published ++ [fn]) c) dst_images)
    [paths.published ++ [fn]] hbad2
  simp only [publish_selected, hfn]
  rw [if_neg hne, if_neg (by simp [hnoex]), hcopy]
  dsimp only
  simp only [hwi, hpi]
  rw [hoe]
  dsimp only
  refine ⟨⟨e, rfl⟩, ?_⟩
  intro q hq hqr
  refine pubCopyImages_err env.flt dst_images fs _ _ _ ?_ ?_ e hoe q hq hqr
  · intro r hr
    rw [isFile_mkdirAll] at hr
    by_cases hrq : r = paths.published ++ [fn]
    · exact Or.inr (by simp [hrq])
    · rw [isFile_setFile_ne _ _ c r hrq, isFile_mkdirAll] at hr
      exact Or.inl hr
  · intro r hr
    have : r = paths.published ++ [fn] := by simpa using hr
    rw [this, isFile_mkdirAll]
    exact isFile_setFile_self _ _ c

/-- Witness for C1 (amended) at two concrete runs: one whose image copy is
rejected by the oracle, and one whose image destination already exists (a
conflict with no I/O fault); both fail, and in both the destination
markdown (removal not faulted) is gone afterwards. -/
theorem publish_image_failure_rolls_back_witness :
    ((∃ e, (publish_selected
        ⟨⟨fun s _ => s == ["wi", "a.png"], fun _ => false⟩, true, none⟩
        ["w", "a.md"] ⟨["w"], ["p"], some ["wi"], some ["pi"]⟩
        [(["w"], Node.dir), (["p"], Node.dir), (["wi"], Node.dir),
         (["pi"], Node.dir), (["w", "a.md"], Node.file "h"),
         (["wi", "a.png"], Node.file "i")]).res = .error e) ∧
    FS.isFile (publish_selected
        ⟨⟨fun s _ => s == ["wi", "a.png"], fun _ => false⟩, true, none⟩
        ["w", "a.md"] ⟨["w"], ["p"], some ["wi"], some ["pi"]⟩
        [(["w"], Node.dir), (["p"], Node.dir), (["wi"], Node.dir),
         (["pi"], Node.dir), (["w", "a.md"], Node.file "h"),
         (["wi", "a.png"], Node.file "i")]).fs ["p", "a.md"] = false) ∧
    ((∃ e, (publish_selected
        ⟨⟨fun _ _ => false, fun _ => false⟩, true, none⟩
        ["w", "a.md"] ⟨["w"], ["p"], some ["wi"], some ["pi"]⟩
        [(["w"], Node.dir), (["p"], Node.dir), (["wi"], Node.dir),
         (["pi"], Node.dir), (["w", "a.md"], Node.file "h"),
         (["wi", "a.png"], Node.file "i"),
         (["pi", "a.png"], Node.file "old")]).res = .error e) ∧
    FS.isFile (publish_selected
        ⟨⟨fun _ _ => false, fun _ => false⟩, true, none⟩
        ["w", "a.md"] ⟨["w"], ["p"], some ["wi"], some ["pi"]⟩
        [(["w"], Node.dir), (["p"], Node.dir), (["wi"], Node.dir),
         (["pi"], Node.dir), (["w", "a.md"], Node.file "h"),
         (["wi", "a.png"], Node.file "i"),
         (["pi", "a.png"], Node.file "old")]).fs ["p", "a.md"] = false) := by
  have h := publish_image_failure_rolls_back
    ⟨⟨fun s _ => s == ["wi", "a.png"], fun _ => false⟩, true, none⟩
    ["w", "a.md"] ⟨["w"], ["p"], some ["wi"], some ["pi"]⟩
    [(["w"], Node.dir), (["p"], Node.dir), (["wi"], Node.dir),
     (["pi"], Node.dir), (["w", "a.md"], Node.file "h"),
     (["wi", "a.png"], Node.file "i")]
    "a.md" ["wi"] ["pi"] rfl (by decide) rfl rfl (by decide) (by decide)
    (by decide) (by decide)
  have h2 := publish_image_failure_rolls_back
    ⟨⟨fun _ _ => false, fun _ => false⟩, true, none⟩
    ["w", "a.md"] ⟨["w"], ["p"], some ["wi"], some ["pi"]⟩
    [(["w"], Node.dir), (["p"], Node.dir), (["wi"], Node.dir),
     (["pi"], Node.dir), (["w", "a.md"], Node.file "h"),
     (["wi", "a.png"], Node.file "i"),
     (["pi", "a.png"], Node.file "old")]
    "a.md" ["wi"] ["pi"] rfl (by decide) rfl rfl (by decide) (by decide)
    (by decide) (by decide)
  exact ⟨⟨h.1, h.2 ["p", "a.md"] (by decide) (by decide)⟩,
    ⟨h2.1, h2.2 ["p", "a.md"] (by decide) (by decide)⟩⟩

/-- C1 counterexample: an image-conflict failure whose rollback removal of
the destination markdown is itself rejected by the fault oracle — the run
fails with the rollback-failure text appended, yet the destination
markdown still exists, contradicting the claim's unconditional "after
every such failing run the destination markdown file no longer exists". -/
theorem publish_rollback_failure_counterexample :
    errOf (publish_selected
        ⟨⟨fun _ _ => false, fun p => p == ["p", "a.md"]⟩, true, none⟩
        ["w", "a.md"] ⟨["w"], ["p"], some ["wi"], some ["pi"]⟩
        [(["w"], Node.dir), (["p"], Node.dir), (["wi"], Node.dir),
         (["pi"], Node.dir), (["w", "a.md"], Node.file "h"),
         (["wi", "a.png"], Node.file "i"),
         (["pi", "a.png"], Node.file "old")]).res =
      some ("Image exists and rollback failures: " ++
        "Failed to remove /p/a.md") ∧
    FS.existsp (publish_selected
        ⟨⟨fun _ _ => false, fun p => p == ["p", "a.md"]⟩, true, none⟩
        ["w", "a.md"] ⟨["w"], ["p"], some ["wi"], some ["pi"]⟩
        [(["w"], Node.dir), (["p"], Node.dir), (["wi"], Node.dir),
         (["pi"], Node.dir), (["w", "a.md"], Node.file "h"),
         (["wi", "a.png"], Node.file "i"),
         (["pi", "a.png"], Node.file "old")]).fs ["p", "a.md"] = true := by
  exact ⟨by decide, by decide⟩

/-! ## Delete: backup-loop lemmas -/

theorem backupLoop_tr (flt : Faults) (tmp : Path) :
    ∀ (files : List Path) (fs : FS),
      (backupLoop flt tmp files fs).tr =
        (backupLoop flt tmp files fs).pairs.map
          (fun pr => FsOp.copy pr.1 pr.2) := by
  intro files
  induction files with
  | nil => intro fs; rfl
  | cons f rest ih =>
    intro fs
    simp only [backupLoop]
    by_cases hex : FS.existsp fs f
    · rw [if_pos hex]
      cases hcp : fsCopy flt fs f (tmp ++ [Path.baseName f]) with
      | none => rfl
      | some fs2 => simp [ih fs2]
    · rw [if_neg hex]; exact ih fs

theorem backupLoop_complete (flt : Faults) (tmp : Path) :
    ∀ (files : List Path) (fs : FS) (f : Path),
      (backupLoop flt tmp files fs).res = .ok () → f ∈ files →
      FS.existsp fs f = true →
      (f, tmp ++ [Path.baseName f]) ∈ (backupLoop flt tmp files fs).pairs := by
  intro files
  induction files with
  | nil => intro fs f _ hf; exact absurd hf (List.not_mem_nil f)
  | cons g rest ih =>
    intro fs f hres hf hex
    simp only [backupLoop] at hres ⊢
    by_cases hg : FS.existsp fs g
    · rw [if_pos hg] at hres ⊢
      cases hcp : fsCopy flt fs g (tmp ++ [Path.baseName g]) with
      | none => rw [hcp] at hres; exact absurd hres (by simp)
      | some fs2 =>
        rw [hcp] at hres
        dsimp only at hres ⊢
        rcases List.mem_cons.mp hf with hfg | hfg
        · subst hfg; exact List.mem_cons_self _ _
        · obtain ⟨c, -, -, hc2⟩ := fsCopy_eq_some flt fs g _ fs2 hcp
          subst hc2
          exact List.mem_cons_of_mem _
            (ih _ f hres hfg (existsp_setFile_mono fs _ c f hex))
    · rw [if_neg hg] at hres ⊢
      rcases List.mem_cons.mp hf with hfg | hfg
      · subst hfg; exact absurd hex (by simp [hg])
      · exact ih fs f hres hfg hex

theorem remove_not_mem_copy_map (pairs : List (Path × Path)) (p : Path) :
    FsOp.remove p ∉ pairs.map (fun pr => FsOp.copy pr.1 pr.2) := by
  intro h
  obtain ⟨pr, -, hpr⟩ := List.mem_map.mp h
  exact FsOp.noConfusion hpr

theorem slot_ne_of_dropLast_ne (tmp : Path) (q : Path) (s : String)
    (h : q.dropLast ≠ tmp) : q ≠ tmp ++ [s] := by
  intro he
  rw [he, List.dropLast_concat] at h
  exact h rfl

theorem backupLoop_ok (flt : Faults) (tmp : Path) :
    ∀ (files : List Path) (fs : FS),
      (∀ f ∈ files, flt.copyFails f (tmp ++ [Path.baseName f]) = false) →
      (∀ f ∈ files, FS.isFile fs f = true ∨ FS.existsp fs f = false) →
      (∀ f ∈ files, f.dropLast ≠ tmp) →
      (backupLoop flt tmp files fs).res = .ok () ∧
      (backupLoop flt tmp files fs).pairs =
        (files.filter (fun f => FS.existsp fs f)).map
          (fun f => (f, tmp ++ [Path.baseName f])) ∧
      (∀ q, q ∉ files.map (fun f => tmp ++ [Path.baseName f]) →
        FS.content (backupLoop flt tmp files fs).fs q = FS.content fs q ∧
        FS.existsp (backupLoop flt tmp files fs).fs q = FS.existsp fs q) ∧
      ((files.map Path.baseName).Nodup →
        ∀ f ∈ files, FS.existsp fs f = true →
          FS.content (backupLoop flt tmp files fs).fs
            (tmp ++ [Path.baseName f]) = FS.content fs f) ∧
      (∀ q, FS.existsp fs q = true →
        FS.existsp (backupLoop flt tmp files fs).fs q = true) := by
  intro files
  induction files with
  | nil =>
    intro fs _ _ _
    refine ⟨rfl, rfl, fun q _ => ⟨rfl, rfl⟩, fun _ f hf => absurd hf (List.not_mem_nil f), fun q h => h⟩
  | cons f rest ih =>
    intro fs hnf hfl hsrc
    have hnff := hnf f (List.mem_cons_self f rest)
    have hsrcf := hsrc f (List.mem_cons_self f rest)
    simp only [backupLoop]
    by_cases hex : FS.existsp fs f
    · rw [if_pos hex]
      have hisf : FS.isFile fs f = true := by
        rcases hfl f (List.mem_cons_self f rest) with h | h
        · exact h
        · exact absurd hex (by simp [h])
      obtain ⟨c, hc⟩ := content_isSome_of_isFile fs f hisf
      have hcp : fsCopy flt fs f (tmp ++ [Path.baseName f]) =
          some (FS.setFile fs (tmp ++ [Path.baseName f]) c) := by
        unfold fsCopy
        rw [hc]
        simp [hnff]
      rw [hcp]
      dsimp only
      have hne2 : ∀ g ∈ rest, g ≠ tmp ++ [Path.baseName f] :=
        fun g hg => slot_ne_of_dropLast_ne tmp g _ (hsrc g (List.mem_cons_of_mem f hg))
      have hflr : ∀ g ∈ rest,
          FS.isFile (FS.setFile fs (tmp ++ [Path.baseName f]) c) g = true ∨
          FS.existsp (FS.setFile fs (tmp ++ [Path.baseName f]) c) g = false := by
        intro g hg
        rw [isFile_setFile_ne fs _ c g (hne2 g hg),
          existsp_setFile_ne fs _ c g (hne2 g hg)]
        exact hfl g (List.mem_cons_of_mem f hg)
      obtain ⟨ihres, ihpairs, ihpres, ihback, ihmono⟩ :=
        ih (FS.setFile fs (tmp ++ [Path.baseName f]) c)
          (fun g hg => hnf g (List.mem_cons_of_mem f hg)) hflr
          (fun g hg => hsrc g (List.mem_cons_of_mem f hg))
      have hexeq : ∀ g ∈ rest,
          FS.existsp (FS.setFile fs (tmp ++ [Path.baseName f]) c) g =
            FS.existsp fs g :=
        fun g hg => existsp_setFile_ne fs _ c g (hne2 g hg)
      refine ⟨ihres, ?_, ?_, ?_, ?_⟩
      · rw [ihpairs, List.filter_congr hexeq,
          List.filter_cons_of_pos (by simpa using hex), List.map_cons]
      · intro q hq
        have hq1 : q ≠ tmp ++ [Path.baseName f] := by
          intro h2; exact hq (by rw [h2]; exact List.mem_cons_self _ _)
        have hq2 : q ∉ rest.map (fun g => tmp ++ [Path.baseName g]) := by
          intro h2; exact hq (List.mem_cons_of_mem _ h2)
        obtain ⟨hcq, heq⟩ := ihpres q hq2
        rw [hcq, heq, content_setFile_ne fs _ c q hq1,
          existsp_setFile_ne fs _ c q hq1]
        exact ⟨rfl, rfl⟩
      · intro hnd g hg hexg
        rw [List.map_cons, List.nodup_cons] at hnd
        rcases List.mem_cons.mp hg with hgf | hgr
        · subst hgf
          have hslot : tmp ++ [Path.baseName g] ∉
              rest.map (fun x => tmp ++ [Path.baseName x]) := by
            intro h2
            obtain ⟨x, hx, hx2⟩ := List.mem_map.mp h2
            have h3 : [Path.baseName x] = [Path.baseName g] :=
              List.append_inj_right hx2 rfl
            have hbx : Path.baseName x = Path.baseName g := by
              injection h3 with h4 h5
            exact hnd.1 (hbx ▸ List.mem_map_of_mem Path.baseName hx)
          obtain ⟨hcq, -⟩ := ihpres (tmp ++ [Path.baseName g]) hslot
          rw [hcq, content_setFile_self, hc]
        · rw [ihback hnd.2 g hgr (by rw [hexeq g hgr]; exact hexg),
            content_setFile_ne fs _ c g (hne2 g hgr)]
      · intro q hq
        exact ihmono q (existsp_setFile_mono fs _ c q hq)
    · rw [if_neg hex]
      obtain ⟨ihres, ihpairs, ihpres, ihback, ihmono⟩ :=
        ih fs (fun g hg => hnf g (List.mem_cons_of_mem f hg))
          (fun g hg => hfl g (List.mem_cons_of_mem f hg))
          (fun g hg => hsrc g (List.mem_cons_of_mem f hg))
      refine ⟨ihres, ?_, ?_, ?_, ihmono⟩
      · rw [ihpairs, List.filter_cons_of_neg (by simpa using hex)]
      · intro q hq
        exact ihpres q (fun h2 => hq (List.mem_cons_of_mem _ h2))
      · intro hnd g hg hexg
        rw [List.map_cons, List.nodup_cons] at hnd
        rcases List.mem_cons.mp hg with hgf | hgr
        · subst hgf; exact absurd hexg (by simp [hex])
        · exact ihback hnd.2 g hgr hexg

theorem backup_ok (flt : Faults) (tmp : Path) (files : List Path) (fs : FS)
    (hnf : ∀ f ∈ files, flt.copyFails f (tmp ++ [Path.baseName f]) = false)
    (hfl : ∀ f ∈ files,
      FS.isFile fs f = true ∨ FS.existsp (FS.mkdirAll fs tmp) f = false)
    (hsrc : ∀ f ∈ files, f.dropLast ≠ tmp) :
    (backup_files_to_temp flt tmp files fs).res = .ok () ∧
    (backup_files_to_temp flt tmp files fs).pairs =
      (files.filter (fun f => FS.existsp fs f)).map
        (fun f => (f, tmp ++ [Path.baseName f])) ∧
    (∀ q, q ∉ files.map (fun f => tmp ++ [Path.baseName f]) →
      FS.content (backup_files_to_temp flt tmp files fs).fs q =
        FS.content fs q ∧
      FS.existsp (backup_files_to_temp flt tmp files fs).fs q =
        FS.existsp (FS.mkdirAll fs tmp) q) ∧
    ((files.map Path.baseName).Nodup →
      ∀ f ∈ files, FS.existsp fs f = true →
        FS.content (backup_files_to_temp flt tmp files fs).fs
          (tmp ++ [Path.baseName f]) = FS.content fs f) ∧
    (∀ q, FS.existsp fs q = true →
      FS.existsp (backup_files_to_temp flt tmp files fs).fs q = true) := by
  have hexeq : ∀ f ∈ files,
      FS.existsp (FS.mkdirAll fs tmp) f = FS.existsp fs f := by
    intro f hf
    cases hfs : FS.existsp fs f with
    | true => exact existsp_mkdirAll_mono fs tmp f hfs
    | false =>
      rcases hfl f hf with h | h
      · exact absurd (isFile_existsp fs f h) (by simp [hfs])
      · exact h
  have hflL : ∀ f ∈ files,
      FS.isFile (FS.mkdirAll fs tmp) f = true ∨
      FS.existsp (FS.mkdirAll fs tmp) f = false := by
    intro f hf
    rcases hfl f hf with h | h
    · exact Or.inl (by rw [isFile_mkdirAll]; exact h)
    · exact Or.inr h
  obtain ⟨lres, lpairs, lpres, lback, lmono⟩ :=
    backupLoop_ok flt tmp files (FS.mkdirAll fs tmp) hnf hflL hsrc
  unfold backup_files_to_temp
  dsimp only
  refine ⟨lres, ?_, ?_, ?_, ?_⟩
  · rw [lpairs, List.filter_congr hexeq]
  · intro q hq
    obtain ⟨hcq, heq⟩ := lpres q hq
    rw [hcq, heq, content_mkdirAll]
    exact ⟨rfl, rfl⟩
  · intro hnd f hf hexf
    rw [lback hnd f hf (by rw [hexeq f hf]; exact hexf), content_mkdirAll]
  · intro q hq
    exact lmono q (existsp_mkdirAll_mono fs tmp q hq)

/-! ## Delete: restore and cleanup lemmas -/

theorem restore_ok (flt : Faults) :
    ∀ (pairs : List (Path × Path)) (fs : FS),
      (∀ pr ∈ pairs, FS.isFile fs pr.2 = true) →
      (∀ pr ∈ pairs, flt.copyFails pr.2 pr.1 = false) →
      (∀ pr ∈ pairs, ∀ pr2 ∈ pairs, pr.1 ≠ pr2.2) →
      (pairs.map Prod.fst).Nodup →
      (restore_from_backups flt pairs fs).res = .ok () ∧
      (∀ q, q ∉ pairs.map Prod.fst →
        FS.content (restore_from_backups flt pairs fs).fs q =
          FS.content fs q ∧
        FS.existsp (restore_from_backups flt pairs fs).fs q =
          FS.existsp fs q) ∧
      (∀ pr ∈ pairs,
        FS.content (restore_from_backups flt pairs fs).fs pr.1 =
          FS.content fs pr.2) := by
  intro pairs
  induction pairs with
  | nil =>
    intro fs _ _ _ _
    exact ⟨rfl, fun q _ => ⟨rfl, rfl⟩,
      fun pr hpr => absurd hpr (List.not_mem_nil pr)⟩
  | cons pr0 rest ih =>
    obtain ⟨o, b⟩ := pr0
    intro fs h1 h2 hdisj hnd
    have hb : FS.isFile fs b = true := h1 (o, b) (List.mem_cons_self _ _)
    obtain ⟨cb, hcb⟩ := content_isSome_of_isFile fs b hb
    have hcp : fsCopy flt fs b o = some (FS.setFile fs o cb) := by
      unfold fsCopy
      rw [hcb]
      simp [h2 (o, b) (List.mem_cons_self _ _)]
    simp only [restore_from_backups]
    rw [if_pos (isFile_existsp fs b hb), hcp]
    dsimp only
    rw [List.map_cons, List.nodup_cons] at hnd
    have hne : ∀ pr ∈ rest, pr.2 ≠ o := by
      intro pr hpr hpe
      exact hdisj (o, b) (List.mem_cons_self _ _) pr
        (List.mem_cons_of_mem _ hpr) hpe.symm
    obtain ⟨ihres, ihpres, ihrest⟩ := ih (FS.setFile fs o cb)
      (fun pr hpr => by
        rw [isFile_setFile_ne fs o cb pr.2 (hne pr hpr)]
        exact h1 pr (List.mem_cons_of_mem _ hpr))
      (fun pr hpr => h2 pr (List.mem_cons_of_mem _ hpr))
      (fun pr hpr pr2 hpr2 =>
        hdisj pr (List.mem_cons_of_mem _ hpr) pr2 (List.mem_cons_of_mem _ hpr2))
      hnd.2
    refine ⟨ihres, ?_, ?_⟩
    · intro q hq
      rw [List.map_cons, List.mem_cons] at hq
      push_neg at hq
      obtain ⟨hcq, heq⟩ := ihpres q hq.2
      rw [hcq, heq, content_setFile_ne fs o cb q hq.1,
        existsp_setFile_ne fs o cb q hq.1]
      exact ⟨rfl, rfl⟩
    · intro pr hpr
      rcases List.mem_cons.mp hpr with hpr0 | hprr
      · rw [hpr0]
        dsimp only
        obtain ⟨hcq, -⟩ := ihpres o hnd.1
        rw [hcq, content_setFile_self, hcb]
      · rw [ihrest pr hprr,
          content_setFile_ne fs o cb pr.2 (hne pr hprr)]

theorem cleanupFiles_outside (flt : Faults) :
    ∀ (cs : List Path) (fs : FS) (q : Path), q ∉ cs →
      FS.content (cleanupFiles flt cs fs).1 q = FS.content fs q ∧
      FS.existsp (cleanupFiles flt cs fs).1 q = FS.existsp fs q := by
  intro cs
  induction cs with
  | nil => intro fs q _; exact ⟨rfl, rfl⟩
  | cons c rest ih =>
    intro fs q hq
    rw [List.mem_cons] at hq
    push_neg at hq
    simp only [cleanupFiles]
    by_cases hok : removeOk flt fs c = true
    · rw [if_pos hok]
      obtain ⟨hc, he⟩ := ih (FS.removeFile fs c) q hq.2
      rw [hc, he, content_removeFile_ne fs c q hq.1,
        existsp_removeFile_ne fs c q hq.1]
      exact ⟨rfl, rfl⟩
    · rw [if_neg hok]
      exact ih fs q hq.2

theorem cleanup_outside (flt : Faults) (fs : FS) (dir : Path) (q : Path)
    (h1 : q.dropLast ≠ dir) (h2 : q ≠ dir) :
    FS.content (cleanup_backup_dir flt fs dir).1 q = FS.content fs q ∧
    FS.existsp (cleanup_backup_dir flt fs dir).1 q = FS.existsp fs q := by
  unfold cleanup_backup_dir
  by_cases hd : FS.isDir fs dir = true
  · rw [if_pos hd]
    have hq : q ∉ FS.entriesIn fs dir := by
      intro hmem
      exact h1 ((mem_entriesIn fs dir q).mp hmem).2.2
    obtain ⟨hc, he⟩ := cleanupFiles_outside flt (FS.entriesIn fs dir) fs q hq
    by_cases hcond : FS.entriesIn (cleanupFiles flt (FS.entriesIn fs dir) fs).1 dir = [] ∧
        flt.removeFails dir = false
    · rw [if_pos hcond]
      dsimp only
      constructor
      · unfold FS.content
        rw [lookup_erase_ne _ dir q h2]
        unfold FS.content at hc
        exact hc
      · unfold FS.existsp
        rw [lookup_erase_ne _ dir q h2]
        unfold FS.existsp at he
        exact he
    · rw [if_neg hcond]
      exact ⟨hc, he⟩
  · rw [if_neg hd]
    exact ⟨rfl, rfl⟩

/-! ## Delete: removal-loop lemmas -/

theorem deleteLoop_ok (flt : Faults) (backups : List (Path × Path))
    (bdir : Path) :
    ∀ (list : List Path) (fs : FS),
      (∀ p ∈ list, flt.removeFails p = false) →
      (∀ p ∈ list, FS.isFile fs p = true ∨ FS.existsp fs p = false) →
      (deleteLoop flt backups bdir list fs).res = .ok () ∧
      (∀ q, q ∉ list →
        FS.content (deleteLoop flt backups bdir list fs).fs q =
          FS.content fs q ∧
        FS.existsp (deleteLoop flt backups bdir list fs).fs q =
          FS.existsp fs q) ∧
      (∀ p ∈ list,
        FS.existsp (deleteLoop flt backups bdir list fs).fs p = false) := by
  intro list
  induction list with
  | nil =>
    intro fs _ _
    exact ⟨rfl, fun q _ => ⟨rfl, rfl⟩,
      fun p hp => absurd hp (List.not_mem_nil p)⟩
  | cons p rest ih =>
    intro fs hnr hfl
    simp only [deleteLoop]
    by_cases hex : FS.existsp fs p = true
    · rw [if_pos hex]
      have hisf : FS.isFile fs p = true := by
        rcases hfl p (List.mem_cons_self _ _) with h | h
        · exact h
        · exact absurd hex (by simp [h])
      have hok : removeOk flt fs p = true := by
        unfold removeOk
        rw [hisf, hnr p (List.mem_cons_self _ _)]
        rfl
      rw [if_pos hok]
      obtain ⟨ihres, ihpres, ihrem⟩ := ih (FS.removeFile fs p)
        (fun g hg => hnr g (List.mem_cons_of_mem _ hg))
        (fun g hg => by
          by_cases hgp : g = p
          · subst hgp
            exact Or.inr (existsp_removeFile_self fs g)
          · rw [isFile_removeFile_ne fs p g hgp,
              existsp_removeFile_ne fs p g hgp]
            exact hfl g (List.mem_cons_of_mem _ hg))
      refine ⟨ihres, ?_, ?_⟩
      · intro q hq
        rw [List.mem_cons] at hq
        push_neg at hq
        obtain ⟨hc, he⟩ := ihpres q hq.2
        rw [hc, he, content_removeFile_ne fs p q hq.1,
          existsp_removeFile_ne fs p q hq.1]
        exact ⟨rfl, rfl⟩
      · intro r hr
        rcases List.mem_cons.mp hr with hrp | hrr
        · subst hrp
          by_cases hrrest : r ∈ rest
          · exact ihrem r hrrest
          · obtain ⟨-, he⟩ := ihpres r hrrest
            rw [he, existsp_removeFile_self]
        · exact ihrem r hrr
    · rw [if_neg hex]
      obtain ⟨ihres, ihpres, ihrem⟩ := ih fs
        (fun g hg => hnr g (List.mem_cons_of_mem _ hg))
        (fun g hg => hfl g (List.mem_cons_of_mem _ hg))
      refine ⟨ihres, ?_, ?_⟩
      · intro q hq
        rw [List.mem_cons] at hq
        push_neg at hq
        exact ihpres q hq.2
      · intro r hr
        rcases List.mem_cons.mp hr with hrp | hrr
        · subst hrp
          by_cases hrrest : r ∈ rest
          · exact ihrem r hrrest
          · obtain ⟨-, he⟩ := ihpres r hrrest
            rw [he]
            simpa using hex
        · exact ihrem r hrr

theorem deleteLoop_fail (flt : Faults) (backups : List (Path × Path))
    (bdir : Path) :
    ∀ (list : List Path) (fs : FS),
      (∀ p ∈ list, FS.isFile fs p = true ∨ FS.existsp fs p = false) →
      (∃ p ∈ list, FS.isFile fs p = true ∧ flt.removeFails p = true) →
      ∃ fsX,
        (∀ q, q ∉ list → FS.content fsX q = FS.content fs q ∧
          FS.existsp fsX q = FS.existsp fs q) ∧
        (∀ q, (FS.content fsX q = FS.content fs q ∧
            FS.existsp fsX q = FS.existsp fs q) ∨ FS.content fsX q = none) ∧
        (∃ e, (deleteLoop flt backups bdir list fs).res = .error e) ∧
        (deleteLoop flt backups bdir list fs).fs =
          (restore_and_cleanup flt backups bdir fsX).fs := by
  intro list
  induction list with
  | nil =>
    intro fs _ hfail
    obtain ⟨p, hp, -⟩ := hfail
    exact absurd hp (List.not_mem_nil p)
  | cons p rest ih =>
    intro fs hfl hfail
    simp only [deleteLoop]
    by_cases hex : FS.existsp fs p = true
    · rw [if_pos hex]
      by_cases hok : removeOk flt fs p = true
      · rw [if_pos hok]
        have hnrp : flt.removeFails p = false := by
          unfold removeOk at hok
          rw [Bool.and_eq_true] at hok
          simpa using hok.2
        obtain ⟨w, hw, hwf, hwr⟩ := hfail
        have hwp : w ≠ p := by
          intro he
          rw [he, hnrp] at hwr
          exact Bool.false_ne_true hwr
        have hwrest : w ∈ rest := by
          rcases List.mem_cons.mp hw with h | h
          · exact absurd h hwp
          · exact h
        obtain ⟨fsX, inv1, inv2, herr, hfs⟩ := ih (FS.removeFile fs p)
          (fun g hg => by
            by_cases hgp : g = p
            · subst hgp
              exact Or.inr (existsp_removeFile_self fs g)
            · rw [isFile_removeFile_ne fs p g hgp,
                existsp_removeFile_ne fs p g hgp]
              exact hfl g (List.mem_cons_of_mem _ hg))
          ⟨w, hwrest, by
            rw [isFile_removeFile_ne fs p w hwp]
            exact ⟨hwf, hwr⟩⟩
        refine ⟨fsX, ?_, ?_, herr, hfs⟩
        · intro q hq
          rw [List.mem_cons] at hq
          push_neg at hq
          obtain ⟨hc, he⟩ := inv1 q hq.2
          rw [hc, he, content_removeFile_ne fs p q hq.1,
            existsp_removeFile_ne fs p q hq.1]
          exact ⟨rfl, rfl⟩
        · intro q
          rcases inv2 q with ⟨hc, he⟩ | hnone
          · by_cases hqp : q = p
            · subst hqp
              right
              rw [hc, content_removeFile_self]
            · left
              rw [hc, he, content_removeFile_ne fs p q hqp,
                existsp_removeFile_ne fs p q hqp]
              exact ⟨rfl, rfl⟩
          · right; exact hnone
      · rw [if_neg hok]
        refine ⟨fs, fun q _ => ⟨rfl, rfl⟩, fun q => Or.inl ⟨rfl, rfl⟩, ?_, ?_⟩
        · cases hr : (restore_and_cleanup flt backups bdir fs).res with
          | error e => exact ⟨e, rfl⟩
          | ok u => exact ⟨_, rfl⟩
        · cases hr : (restore_and_cleanup flt backups bdir fs).res with
          | error e => rfl
          | ok u => rfl
    · rw [if_neg hex]
      obtain ⟨w, hw, hwf, hwr⟩ := hfail
      have hwp : w ≠ p := by
        intro he
        rw [he] at hwf
        exact absurd hex (by simp [isFile_existsp fs p hwf])
      have hwrest : w ∈ rest := by
        rcases List.mem_cons.mp hw with h | h
        · exact absurd h hwp
        · exact h
      obtain ⟨fsX, inv1, inv2, herr, hfs⟩ := ih fs
        (fun g hg => hfl g (List.mem_cons_of_mem _ hg))
        ⟨w, hwrest, hwf, hwr⟩
      refine ⟨fsX, ?_, inv2, herr, hfs⟩
      intro q hq
      rw [List.mem_cons] at hq
      push_neg at hq
      exact inv1 q hq.2

/-! ## Delete: step-1 (working-area backup) characterization

Step 1 of `delete_selected` only ever creates entries at paths that did not
exist when it touched them, and its best-effort rollback removes only such
entries.  This is captured by presenting its result filesystem as
`pre ++ fs` for a list `pre` of fresh entries. -/

theorem lookup_append (l1 l2 : FS) (q : Path) :
    FS.lookup (l1 ++ l2) q =
      match FS.lookup l1 q with
      | some n => some n
      | none => FS.lookup l2 q := by
  induction l1 with
  | nil => rfl
  | cons e rest ih =>
    rw [List.cons_append, lookup_cons, lookup_cons]
    by_cases he : e.1 = q
    · rw [if_pos he, if_pos he]
    · rw [if_neg he, if_neg he]
      exact ih

theorem lookup_mem (l : FS) (q : Path) (n : Node)
    (h : FS.lookup l q = some n) : (q, n) ∈ l := by
  induction l with
  | nil => exact absurd h (by simp [FS.lookup])
  | cons e rest ih =>
    rw [lookup_cons] at h
    by_cases he : e.1 = q
    · rw [if_pos he] at h
      injection h with h2
      refine List.mem_cons.mpr (Or.inl ?_)
      cases e
      cases he
      cases h2
      rfl
    · rw [if_neg he] at h
      exact List.mem_cons_of_mem e (ih h)

theorem lookup_of_mem_nodup (l : FS) (e : Path × Node)
    (he : e ∈ l) (hnd : (l.map Prod.fst).Nodup) :
    FS.lookup l e.1 = some e.2 := by
  induction l with
  | nil => exact absurd he (List.not_mem_nil e)
  | cons a rest ih =>
    rw [List.map_cons, List.nodup_cons] at hnd
    rw [lookup_cons]
    rcases List.mem_cons.mp he with h | h
    · subst h
      rw [if_pos rfl]
    · have hne : a.1 ≠ e.1 := by
        intro heq
        exact hnd.1 (heq ▸ List.mem_map_of_mem Prod.fst h)
      rw [if_neg hne]
      exact ih h hnd.2

theorem lookup_none_of_fresh (pre fs : FS) (q : Path)
    (hfresh : ∀ e ∈ pre, FS.existsp fs e.1 = false)
    (hq : FS.existsp fs q = true) : FS.lookup pre q = none := by
  cases hl : FS.lookup pre q with
  | none => rfl
  | some n =>
    have hmem := lookup_mem pre q n hl
    have h2 := hfresh (q, n) hmem
    dsimp only at h2
    exact absurd hq (by simp [h2])

theorem lookup_append_fresh (pre fs : FS) (q : Path)
    (hfresh : ∀ e ∈ pre, FS.existsp fs e.1 = false)
    (hq : FS.existsp fs q = true) :
    FS.lookup (pre ++ fs) q = FS.lookup fs q := by
  rw [lookup_append, lookup_none_of_fresh pre fs q hfresh hq]

theorem content_append_fresh (pre fs : FS) (q : Path)
    (hfresh : ∀ e ∈ pre, FS.existsp fs e.1 = false)
    (hq : FS.existsp fs q = true) :
    FS.content (pre ++ fs) q = FS.content fs q := by
  unfold FS.content
  rw [lookup_append_fresh pre fs q hfresh hq]

theorem isFile_append_fresh (pre fs : FS) (q : Path)
    (hfresh : ∀ e ∈ pre, FS.existsp fs e.1 = false)
    (hq : FS.existsp fs q = true) :
    FS.isFile (pre ++ fs) q = FS.isFile fs q := by
  unfold FS.isFile
  rw [lookup_append_fresh pre fs q hfresh hq]

theorem existsp_append_mono (pre fs : FS) (q : Path)
    (hq : FS.existsp fs q = true) : FS.existsp (pre ++ fs) q = true := by
  unfold FS.existsp
  rw [lookup_append]
  cases hl : FS.lookup pre q with
  | none =>
    dsimp only
    exact hq
  | some n => rfl

theorem existsp_append_false_right (pre fs : FS) (q : Path)
    (h : FS.existsp (pre ++ fs) q = false) : FS.existsp fs q = false := by
  cases hq : FS.existsp fs q with
  | false => rfl
  | true => exact absurd (existsp_append_mono pre fs q hq) (by simp [h])

theorem not_mem_map_fst_of_not_existsp (pre fs : FS) (q : Path)
    (h : FS.existsp (pre ++ fs) q = false) : q ∉ pre.map Prod.fst := by
  intro hmem
  have hl := (mem_map_fst_iff pre q).mp hmem
  cases hlp : FS.lookup pre q with
  | none => exact hl hlp
  | some n =>
    have h2 : FS.existsp (pre ++ fs) q = true := by
      unfold FS.existsp
      rw [lookup_append, hlp]
      rfl
    exact absurd h2 (by simp [h])

theorem erase_append (l1 l2 : FS) (p : Path) :
    FS.erase (l1 ++ l2) p = FS.erase l1 p ++ FS.erase l2 p := by
  induction l1 with
  | nil => rfl
  | cons e rest ih =>
    rw [List.cons_append]
    simp only [FS.erase]
    by_cases he : e.1 = p
    · rw [if_pos he, if_pos he, ih]
    · rw [if_neg he, if_neg he, ih, List.cons_append]

theorem erase_of_lookup_none (l : FS) (p : Path)
    (h : FS.lookup l p = none) : FS.erase l p = l := by
  induction l with
  | nil => rfl
  | cons e rest ih =>
    rw [lookup_cons] at h
    by_cases he : e.1 = p
    · rw [if_pos he] at h
      exact absurd h (by simp)
    · rw [if_neg he] at h
      simp only [FS.erase]
      rw [if_neg he, ih h]

theorem mem_erase_subset (l : FS) (p : Path) (e : Path × Node)
    (h : e ∈ FS.erase l p) : e ∈ l := by
  induction l with
  | nil => exact absurd h (List.not_mem_nil e)
  | cons a rest ih =>
    simp only [FS.erase] at h
    by_cases ha : a.1 = p
    · rw [if_pos ha] at h
      exact List.mem_cons_of_mem a (ih h)
    · rw [if_neg ha] at h
      rcases List.mem_cons.mp h with h1 | h1
      · exact List.mem_cons.mpr (Or.inl h1)
      · exact List.mem_cons_of_mem a (ih h1)

theorem erase_map_fst_nodup (l : FS) (p : Path)
    (h : (l.map Prod.fst).Nodup) :
    ((FS.erase l p).map Prod.fst).Nodup := by
  induction l with
  | nil => exact h
  | cons a rest ih =>
    rw [List.map_cons, List.nodup_cons] at h
    simp only [FS.erase]
    by_cases ha : a.1 = p
    · rw [if_pos ha]
      exact ih h.2
    · rw [if_neg ha, List.map_cons, List.nodup_cons]
      refine ⟨?_, ih h.2⟩
      intro hmem
      obtain ⟨e, he, he2⟩ := List.mem_map.mp hmem
      exact h.1 (he2 ▸ List.mem_map_of_mem Prod.fst (mem_erase_subset rest p e he))

theorem setFile_append_fresh (pre fs : FS) (p : Path) (c : String)
    (h : FS.existsp (pre ++ fs) p = false) :
    FS.setFile (pre ++ fs) p c = ((p, Node.file c) :: pre) ++ fs := by
  unfold FS.setFile
  have hl : FS.lookup (pre ++ fs) p = none := by
    unfold FS.existsp at h
    cases hll : FS.lookup (pre ++ fs) p with
    | none => rfl
    | some n =>
      rw [hll] at h
      exact absurd h (by simp)
  rw [erase_of_lookup_none _ p hl, List.cons_append]

theorem mem_ancestors_length (p a : Path) (h : a ∈ Path.ancestors p) :
    a.length ≤ p.length := by
  unfold Path.ancestors at h
  rw [List.mem_reverse, List.mem_map] at h
  obtain ⟨i, -, hi⟩ := h
  rw [← hi, List.length_take]
  exact min_le_right i p.length

theorem append_singleton_not_mem_ancestors (d : Path) (s : String) :
    (d ++ [s]) ∉ Path.ancestors d := by
  intro h
  have h2 := mem_ancestors_length d (d ++ [s]) h
  rw [List.length_append] at h2
  simp at h2

theorem existsp_mkdirList_not_mem (l : List Path) (fs : FS) (q : Path)
    (hq : q ∉ l) : FS.existsp (FS.mkdirList l fs) q = FS.existsp fs q := by
  induction l generalizing fs with
  | nil => rfl
  | cons a rest ih =>
    rw [List.mem_cons] at hq
    push_neg at hq
    simp only [FS.mkdirList]
    by_cases hex : FS.existsp fs a = true
    · rw [if_pos hex]
      exact ih fs hq.2
    · rw [if_neg hex]
      rw [ih ((a, Node.dir) :: fs) hq.2]
      unfold FS.existsp
      rw [lookup_cons]
      dsimp only
      rw [if_neg (fun h2 => hq.1 h2.symm)]

theorem mkdirList_fresh (fs0 : FS) :
    ∀ (l : List Path) (pre : FS),
      (pre.map Prod.fst).Nodup →
      (∀ e ∈ pre, FS.existsp fs0 e.1 = false) →
      ∃ pre2 : FS, FS.mkdirList l (pre ++ fs0) = pre2 ++ fs0 ∧
        (pre2.map Prod.fst).Nodup ∧
        (∀ e ∈ pre2, FS.existsp fs0 e.1 = false) ∧
        (∀ e ∈ pre2, e ∈ pre ∨ e.2 = Node.dir) ∧
        (∀ e ∈ pre, e ∈ pre2) := by
  intro l
  induction l with
  | nil =>
    intro pre hnd hfr
    exact ⟨pre, rfl, hnd, hfr, fun e he => Or.inl he, fun e he => he⟩
  | cons a rest ih =>
    intro pre hnd hfr
    simp only [FS.mkdirList]
    by_cases hex : FS.existsp (pre ++ fs0) a = true
    · rw [if_pos hex]
      exact ih pre hnd hfr
    · rw [if_neg hex]
      have hex2 : FS.existsp (pre ++ fs0) a = false := by simpa using hex
      have hfa : FS.existsp fs0 a = false :=
        existsp_append_false_right pre fs0 a hex2
      have hna : a ∉ pre.map Prod.fst :=
        not_mem_map_fst_of_not_existsp pre fs0 a hex2
      obtain ⟨pre2, heq, h1, h2, h3, h4⟩ := ih ((a, Node.dir) :: pre)
        (by
          rw [List.map_cons, List.nodup_cons]
          exact ⟨hna, hnd⟩)
        (by
          intro e he
          rcases List.mem_cons.mp he with h | h
          · subst h
            exact hfa
          · exact hfr e h)
      refine ⟨pre2, heq, h1, h2, ?_, ?_⟩
      · intro e he
        rcases h3 e he with h | h
        · rcases List.mem_cons.mp h with h5 | h5
          · subst h5
            exact Or.inr rfl
          · exact Or.inl h5
        · exact Or.inr h
      · intro e he
        exact h4 e (List.mem_cons_of_mem _ he)

theorem bera_fresh (flt : Faults) (fs0 : FS) :
    ∀ (l : List Path) (pre : FS),
      (pre.map Prod.fst).Nodup →
      (∀ e ∈ pre, FS.existsp fs0 e.1 = false) →
      (∀ b ∈ l, FS.existsp fs0 b = false) →
      ∃ pre2 : FS,
        (bestEffortRemoveAll flt (pre ++ fs0) l).1 = pre2 ++ fs0 ∧
        (pre2.map Prod.fst).Nodup ∧
        (∀ e ∈ pre2, FS.existsp fs0 e.1 = false) ∧
        (∀ e ∈ pre2, e ∈ pre) ∧
        (∀ p, FsOp.remove p ∈ (bestEffortRemoveAll flt (pre ++ fs0) l).2 →
          p ∈ l) := by
  intro l
  induction l with
  | nil =>
    intro pre hnd hfr _
    exact ⟨pre, rfl, hnd, hfr, fun e he => he,
      fun p hp => absurd hp (List.not_mem_nil _)⟩
  | cons b rest ih =>
    intro pre hnd hfr hl
    simp only [bestEffortRemoveAll]
    by_cases hc : (FS.existsp (pre ++ fs0) b && removeOk flt (pre ++ fs0) b) = true
    · rw [if_pos hc]
      dsimp only
      have hb0 : FS.lookup fs0 b = none := by
        have h2 := hl b (List.mem_cons_self b rest)
        unfold FS.existsp at h2
        cases hlb : FS.lookup fs0 b with
        | none => rfl
        | some n =>
          rw [hlb] at h2
          exact absurd h2 (by simp)
      have hrm : FS.removeFile (pre ++ fs0) b = FS.erase pre b ++ fs0 := by
        unfold FS.removeFile
        rw [erase_append, erase_of_lookup_none fs0 b hb0]
      rw [hrm]
      obtain ⟨pre2, heq, h1, h2, h3, h5⟩ := ih (FS.erase pre b)
        (erase_map_fst_nodup pre b hnd)
        (fun e he => hfr e (mem_erase_subset pre b e he))
        (fun g hg => hl g (List.mem_cons_of_mem b hg))
      refine ⟨pre2, heq, h1, h2,
        fun e he => mem_erase_subset pre b e (h3 e he), ?_⟩
      intro p hp
      rcases List.mem_cons.mp hp with h | h
      · injection h with h6
        exact List.mem_cons.mpr (Or.inl h6)
      · exact List.mem_cons_of_mem b (h5 p h)
    · rw [if_neg hc]
      obtain ⟨pre2, heq, h1, h2, h3, h5⟩ := ih pre hnd hfr
        (fun g hg => hl g (List.mem_cons_of_mem b hg))
      exact ⟨pre2, heq, h1, h2, h3,
        fun p hp => List.mem_cons_of_mem b (h5 p hp)⟩

theorem delBackupImages_fresh (flt : Faults) (work_imgs : Path) (fs0 : FS) :
    ∀ (images : List Path) (pre : FS) (bfs : List Path),
      (pre.map Prod.fst).Nodup →
      (∀ e ∈ pre, FS.existsp fs0 e.1 = false) →
      (∀ b ∈ bfs, FS.existsp fs0 b = false) →
      ∃ pre2 : FS,
        (delBackupImages flt work_imgs images (pre ++ fs0) bfs).fs =
          pre2 ++ fs0 ∧
        (pre2.map Prod.fst).Nodup ∧
        (∀ e ∈ pre2, FS.existsp fs0 e.1 = false) ∧
        (∀ e ∈ pre2, e ∈ pre ∨ e.1.dropLast = work_imgs) ∧
        (∀ p, FsOp.remove p ∈
            (delBackupImages flt work_imgs images (pre ++ fs0) bfs).tr →
          FS.existsp fs0 p = false) ∧
        ((delBackupImages flt work_imgs images (pre ++ fs0) bfs).res =
            .ok () →
          (∀ p, FsOp.remove p ∉
            (delBackupImages flt work_imgs images (pre ++ fs0) bfs).tr) ∧
          ∀ e ∈ pre, e ∈ pre2) := by
  intro images
  induction images with
  | nil =>
    intro pre bfs hnd hfr hb
    exact ⟨pre, rfl, hnd, hfr, fun e he => Or.inl he,
      fun p hp => absurd hp (List.not_mem_nil _),
      fun _ => ⟨fun p hp => absurd hp (List.not_mem_nil _), fun e he => he⟩⟩
  | cons img rest ih =>
    intro pre bfs hnd hfr hb
    simp only [delBackupImages]
    by_cases hex :
        FS.existsp (pre ++ fs0) (work_imgs ++ [Path.baseName img]) = true
    · rw [if_pos hex]
      dsimp only
      obtain ⟨pre2, heq, h1, h2, h3, h5⟩ := bera_fresh flt fs0 bfs pre hnd hfr hb
      refine ⟨pre2, heq, h1, h2, fun e he => Or.inl (h3 e he), ?_, ?_⟩
      · intro p hp
        exact hb p (h5 p hp)
      · intro hres
        exact Except.noConfusion hres
    · rw [if_neg hex]
      cases hcp : fsCopy flt (pre ++ fs0) img (work_imgs ++ [Path.baseName img]) with
      | none =>
        dsimp only
        obtain ⟨pre2, heq, h1, h2, h3, h5⟩ :=
          bera_fresh flt fs0 bfs pre hnd hfr hb
        refine ⟨pre2, heq, h1, h2, fun e he => Or.inl (h3 e he), ?_, ?_⟩
        · intro p hp
          exact hb p (h5 p hp)
        · intro hres
          exact Except.noConfusion hres
      | some fs2 =>
        dsimp only
        obtain ⟨c, hc, hcf, hfs2⟩ := fsCopy_eq_some flt (pre ++ fs0) img _ fs2 hcp
        subst hfs2
        have hexf :
            FS.existsp (pre ++ fs0) (work_imgs ++ [Path.baseName img]) =
              false := by simpa using hex
        rw [setFile_append_fresh pre fs0 _ c hexf]
        obtain ⟨pre2, heq, h1, h2, h3, h5, h6⟩ := ih
          ((work_imgs ++ [Path.baseName img], Node.file c) :: pre)
          (bfs ++ [work_imgs ++ [Path.baseName img]])
          (by
            rw [List.map_cons, List.nodup_cons]
            exact ⟨not_mem_map_fst_of_not_existsp pre fs0 _ hexf, hnd⟩)
          (by
            intro e he
            rcases List.mem_cons.mp he with h | h
            · subst h
              exact existsp_append_false_right pre fs0 _ hexf
            · exact hfr e h)
          (by
            intro g hg
            rcases List.mem_append.mp hg with h | h
            · exact hb g h
            · have h7 : g = work_imgs ++ [Path.baseName img] := by
                simpa using h
              rw [h7]
              exact existsp_append_false_right pre fs0 _ hexf)
        refine ⟨pre2, heq, h1, h2, ?_, ?_, ?_⟩
        · intro e he
          rcases h3 e he with h | h
          · rcases List.mem_cons.mp h with h7 | h7
            · rw [h7]
              exact Or.inr List.dropLast_concat
            · exact Or.inl h7
          · exact Or.inr h
        · intro p hp
          rcases List.mem_cons.mp hp with h | h
          · exact FsOp.noConfusion h
          · exact h5 p h
        · intro hres
          obtain ⟨hnr, hsub⟩ := h6 hres
          refine ⟨?_, ?_⟩
          · intro p hp
            rcases List.mem_cons.mp hp with h | h
            · exact FsOp.noConfusion h
            · exact hnr p h
          · intro e he
            exact hsub e (List.mem_cons_of_mem _ he)

theorem copy_file_to_fresh (flt : Faults) (fs : FS) (src dst_dir : Path) :
    ∃ pre : FS, (copy_file_to flt fs src dst_dir).fs = pre ++ fs ∧
      (pre.map Prod.fst).Nodup ∧
      (∀ e ∈ pre, FS.existsp fs e.1 = false) ∧
      (∀ e ∈ pre, e.2 = Node.dir ∨ e.1 = dst_dir ++ [Path.baseName src]) ∧
      (∀ p, FsOp.remove p ∉ (copy_file_to flt fs src dst_dir).tr) ∧
      (∀ r, (copy_file_to flt fs src dst_dir).res = .ok r →
        r = dst_dir ++ [Path.baseName src] ∧
        ∃ c, FS.content fs src = some c ∧
          (dst_dir ++ [Path.baseName src], Node.file c) ∈ pre) := by
  unfold copy_file_to
  obtain ⟨pre1, h1eq, h1nd, h1fr, h1kind, -⟩ :=
    mkdirList_fresh fs (Path.ancestors dst_dir) [] List.nodup_nil
      (fun e he => absurd he (List.not_mem_nil e))
  have hfs1 : FS.mkdirAll fs dst_dir = pre1 ++ fs := h1eq
  have h1dir : ∀ e ∈ pre1, e.2 = Node.dir := by
    intro e he
    rcases h1kind e he with h | h
    · exact absurd h (List.not_mem_nil e)
    · exact h
  rw [hfs1]
  by_cases hex :
      FS.existsp (pre1 ++ fs) (dst_dir ++ [Path.baseName src]) = true
  · rw [if_pos hex]
    refine ⟨pre1, rfl, h1nd, h1fr, fun e he => Or.inl (h1dir e he), ?_, ?_⟩
    · intro p hp
      rcases List.mem_cons.mp hp with h | h
      · exact FsOp.noConfusion h
      · exact absurd h (List.not_mem_nil _)
    · intro r hr
      exact Except.noConfusion hr
  · rw [if_neg hex]
    cases hcp : fsCopy flt (pre1 ++ fs) src (dst_dir ++ [Path.baseName src]) with
    | none =>
      dsimp only
      refine ⟨pre1, rfl, h1nd, h1fr, fun e he => Or.inl (h1dir e he), ?_, ?_⟩
      · intro p hp
        rcases List.mem_cons.mp hp with h | h
        · exact FsOp.noConfusion h
        · exact absurd h (List.not_mem_nil _)
      · intro r hr
        exact Except.noConfusion hr
    | some fs2 =>
      dsimp only
      obtain ⟨c, hc, -, hfs2⟩ := fsCopy_eq_some flt (pre1 ++ fs) src _ fs2 hcp
      subst hfs2
      have hexf :
          FS.existsp (pre1 ++ fs) (dst_dir ++ [Path.baseName src]) =
            false := by simpa using hex
      rw [setFile_append_fresh pre1 fs _ c hexf]
      have hlk : FS.lookup (pre1 ++ fs) src = some (Node.file c) := by
        unfold FS.content at hc
        cases hl : FS.lookup (pre1 ++ fs) src with
        | none =>
          rw [hl] at hc
          exact absurd hc (by simp)
        | some n =>
          rw [hl] at hc
          cases n with
          | dir => exact absurd hc (by simp)
          | file c2 =>
            dsimp only at hc
            injection hc with h2
            rw [h2]
      have hpn : FS.lookup pre1 src = none := by
        cases hlp : FS.lookup pre1 src with
        | none => rfl
        | some n =>
          have hmem := lookup_mem pre1 src n hlp
          have hdirn := h1dir (src, n) hmem
          dsimp only at hdirn
          have h3 : FS.lookup (pre1 ++ fs) src = some n := by
            rw [lookup_append, hlp]
          rw [hlk] at h3
          injection h3 with h4
          rw [hdirn] at h4
          exact Node.noConfusion h4
      have hcontent : FS.content fs src = some c := by
        have h3 := lookup_append pre1 fs src
        rw [hpn] at h3
        dsimp only at h3
        rw [hlk] at h3
        unfold FS.content
        rw [← h3]
      refine ⟨(dst_dir ++ [Path.baseName src], Node.file c) :: pre1, rfl,
        ?_, ?_, ?_, ?_, ?_⟩
      · rw [List.map_cons, List.nodup_cons]
        exact ⟨not_mem_map_fst_of_not_existsp pre1 fs _ hexf, h1nd⟩
      · intro e he
        rcases List.mem_cons.mp he with h | h
        · subst h
          exact existsp_append_false_right pre1 fs _ hexf
        · exact h1fr e h
      · intro e he
        rcases List.mem_cons.mp he with h | h
        · subst h
          exact Or.inr rfl
        · exact Or.inl (h1dir e h)
      · intro p hp
        rcases List.mem_cons.mp hp with h | h
        · exact FsOp.noConfusion h
        · rcases List.mem_cons.mp h with h2 | h2
          · exact FsOp.noConfusion h2
          · exact absurd h2 (List.not_mem_nil _)
      · intro r hr
        injection hr with h2
        exact ⟨h2.symm, c, hcontent, List.mem_cons_self _ _⟩

theorem deleteStep1_fresh (env : DelEnv) (selected : Path) (paths : AppPaths)
    (stem_lower : String) (fs : FS) :
    ∃ pre : FS,
      (deleteStep1 env selected paths stem_lower fs).fs = pre ++ fs ∧
      (pre.map Prod.fst).Nodup ∧
      (∀ e ∈ pre, FS.existsp fs e.1 = false) ∧
      (∀ e ∈ pre, e.2 = Node.dir ∨ e.1.dropLast = paths.ready ∨
        ∃ wi, paths.working_images = some wi ∧ e.1.dropLast = wi) ∧
      (∀ p, FsOp.remove p ∈ (deleteStep1 env selected paths stem_lower fs).tr →
        FS.existsp fs p = false) ∧
      ((deleteStep1 env selected paths stem_lower fs).res = .ok () →
        ∀ p, FsOp.remove p ∉ (deleteStep1 env selected paths stem_lower fs).tr) ∧
      ((deleteStep1 env selected paths stem_lower fs).res = .ok () →
        env.confirmBackup = true →
        FS.existsp fs (paths.ready ++ [Path.baseName selected]) = false →
        FS.content (deleteStep1 env selected paths stem_lower fs).fs
          (paths.ready ++ [Path.baseName selected]) =
          FS.content fs selected) := by
  unfold deleteStep1
  dsimp only
  by_cases hwm :
      FS.existsp fs (paths.ready ++ [Path.baseName selected]) = true
  · rw [if_pos hwm]
    refine ⟨[], rfl, List.nodup_nil,
      fun e he => absurd he (List.not_mem_nil e),
      fun e he => absurd he (List.not_mem_nil e),
      fun p hp => absurd hp (List.not_mem_nil _),
      fun _ p hp => absurd hp (List.not_mem_nil _), ?_⟩
    intro _ _ hno
    exact absurd hwm (by simp [hno])
  · rw [if_neg hwm]
    by_cases hcb : env.confirmBackup = false
    · rw [if_pos hcb]
      refine ⟨[], rfl, List.nodup_nil,
        fun e he => absurd he (List.not_mem_nil e),
        fun e he => absurd he (List.not_mem_nil e),
        fun p hp => absurd hp (List.not_mem_nil _),
        fun _ p hp => absurd hp (List.not_mem_nil _), ?_⟩
      intro _ hcbt _
      rw [hcb] at hcbt
      exact Bool.noConfusion hcbt
    · rw [if_neg hcb]
      obtain ⟨preC, hCeq, hCnd, hCfr, hCkind, hCnr, hCok⟩ :=
        copy_file_to_fresh env.flt fs selected paths.ready
      have hCkind2 : ∀ e ∈ preC, e.2 = Node.dir ∨
          e.1.dropLast = paths.ready ∨
          ∃ wi, paths.working_images = some wi ∧ e.1.dropLast = wi := by
        intro e he
        rcases hCkind e he with h | h
        · exact Or.inl h
        · exact Or.inr (Or.inl (by rw [h]; exact List.dropLast_concat))
      cases hcres : (copy_file_to env.flt fs selected paths.ready).res with
      | error e =>
        dsimp only
        exact ⟨preC, hCeq, hCnd, hCfr, hCkind2,
          fun p hp => absurd hp (hCnr p),
          fun hok _ => absurd hok (fun h => Except.noConfusion h),
          fun hok _ _ => absurd hok (fun h => Except.noConfusion h)⟩
      | ok copied =>
        dsimp only
        obtain ⟨hcopied, c0, hc0, hc0mem⟩ :=
          hCok copied hcres
        have hdstfr : FS.existsp fs
            (paths.ready ++ [Path.baseName selected]) = false := by
          have := hCfr _ hc0mem
          exact this
        have hdstcontent : ∀ pre2 : FS, (pre2.map Prod.fst).Nodup →
            ((paths.ready ++ [Path.baseName selected]), Node.file c0) ∈ pre2 →
            FS.content (pre2 ++ fs)
              (paths.ready ++ [Path.baseName selected]) =
              FS.content fs selected := by
          intro pre2 hnd2 hmem2
          unfold FS.content
          rw [lookup_append,
            lookup_of_mem_nodup pre2 _ hmem2 hnd2]
          dsimp only
          unfold FS.content at hc0
          exact hc0.symm
        have hCkindR : ∀ e ∈ preC,
            e.2 = Node.dir ∨ e.1.dropLast = paths.ready := by
          intro e he
          rcases hCkind e he with h | h
          · exact Or.inl h
          · exact Or.inr (by rw [h]; exact List.dropLast_concat)
        cases hpi : paths.publishing_images with
        | none =>
          dsimp only
          exact ⟨preC, hCeq, hCnd, hCfr,
            fun e he => (hCkindR e he).elim Or.inl (fun h => Or.inr (Or.inl h)),
            fun p hp => absurd hp (hCnr p),
            fun _ p hp => absurd hp (hCnr p),
            fun _ _ _ => by rw [hCeq]; exact hdstcontent preC hCnd hc0mem⟩
        | some pub_imgs =>
          cases hwi : paths.working_images with
          | none =>
            dsimp only
            exact ⟨preC, hCeq, hCnd, hCfr,
              fun e he =>
                (hCkindR e he).elim Or.inl (fun h => Or.inr (Or.inl h)),
              fun p hp => absurd hp (hCnr p),
              fun _ p hp => absurd hp (hCnr p),
              fun _ _ _ => by rw [hCeq]; exact hdstcontent preC hCnd hc0mem⟩
          | some work_imgs =>
            dsimp only
            by_cases himg : matching_images_for_stem stem_lower pub_imgs
                (copy_file_to env.flt fs selected paths.ready).fs = []
            · rw [if_pos himg]
              exact ⟨preC, hCeq, hCnd, hCfr,
                fun e he =>
                  (hCkindR e he).elim Or.inl (fun h => Or.inr (Or.inl h)),
                fun p hp => absurd hp (hCnr p),
                fun _ p hp => absurd hp (hCnr p),
                fun _ _ _ => by rw [hCeq]; exact hdstcontent preC hCnd hc0mem⟩
            · rw [if_neg himg]
              rw [hCeq]
              obtain ⟨preM, hMeq, hMnd, hMfr, hMkind, hMsup⟩ :=
                mkdirList_fresh fs (Path.ancestors work_imgs) preC hCnd hCfr
              have hMall : FS.mkdirAll (preC ++ fs) work_imgs =
                  preM ++ fs := hMeq
              rw [hMall]
              rw [hcopied]
              obtain ⟨preL, hLeq, hLnd, hLfr, hLkind, hLrm, hLok⟩ :=
                delBackupImages_fresh env.flt work_imgs fs
                  (matching_images_for_stem stem_lower pub_imgs (preC ++ fs))
                  preM [paths.ready ++ [Path.baseName selected]]
                  hMnd hMfr
                  (by
                    intro b hb
                    have h2 : b = paths.ready ++ [Path.baseName selected] := by
                      simpa using hb
                    rw [h2]
                    exact hdstfr)
              have hMkind2 : ∀ e ∈ preM,
                  e.2 = Node.dir ∨ e.1.dropLast = paths.ready := by
                intro e he
                rcases hMkind e he with h | h
                · exact hCkindR e h
                · exact Or.inl h
              refine ⟨preL, hLeq, hLnd, hLfr, ?_, ?_, ?_, ?_⟩
              · intro e he
                rcases hLkind e he with h | h
                · exact (hMkind2 e h).elim Or.inl (fun h2 => Or.inr (Or.inl h2))
                · exact Or.inr (Or.inr ⟨work_imgs, rfl, h⟩)
              · intro p hp
                rcases List.mem_append.mp hp with h | h
                · exact absurd h (hCnr p)
                · rcases List.mem_cons.mp h with h2 | h2
                  · exact absurd h2 (fun h3 => FsOp.noConfusion h3)
                  · exact hLrm p h2
              · intro hok p hp
                obtain ⟨hnr, -⟩ := hLok hok
                rcases List.mem_append.mp hp with h | h
                · exact hCnr p h
                · rcases List.mem_cons.mp h with h2 | h2
                  · exact FsOp.noConfusion h2
                  · exact hnr p h2
              · intro hok _ _
                obtain ⟨-, hsub⟩ := hLok hok
                dsimp only
                rw [hLeq]
                exact hdstcontent preL hLnd
                  (hsub _ (hMsup _ hc0mem))

theorem existsp_of_mem_map_fst (fs : FS) (p : Path)
    (h : p ∈ fs.map Prod.fst) : FS.existsp fs p = true := by
  have hl := (mem_map_fst_iff fs p).mp h
  unfold FS.existsp
  cases hl3 : FS.lookup fs p with
  | none => exact absurd hl3 hl
  | some m => rfl

theorem matching_append_fresh (s : String) (d : Path) (pre fs : FS)
    (hd : FS.isDir fs d = true)
    (hfresh : ∀ e ∈ pre, FS.existsp fs e.1 = false)
    (hdir : ∀ e ∈ pre, e.1.dropLast = d → e.2 = Node.dir) :
    matching_images_for_stem s d (pre ++ fs) =
      matching_images_for_stem s d fs := by
  have hdex : FS.existsp fs d = true := by
    unfold FS.isDir at hd
    unfold FS.existsp
    cases hl : FS.lookup fs d with
    | none =>
      rw [hl] at hd
      exact absurd hd (by simp)
    | some n => rfl
  have hld : FS.lookup (pre ++ fs) d = FS.lookup fs d :=
    lookup_append_fresh pre fs d hfresh hdex
  have hd2 : FS.isDir (pre ++ fs) d = true := by
    unfold FS.isDir at hd ⊢
    rw [hld]
    exact hd
  unfold matching_images_for_stem
  rw [if_pos hd2, if_pos hd]
  unfold FS.entriesIn
  rw [List.map_append, List.filter_append, List.filter_append]
  have hA : ∀ p ∈ (pre.map Prod.fst).filter
      (fun p => decide (p ≠ [] ∧ p.dropLast = d)),
      (FS.isFile (pre ++ fs) p &&
        (match p.getLast? with
         | some name => matchName s name
         | none => false)) = false := by
    intro p hp
    rw [List.mem_filter] at hp
    have hpd : p.dropLast = d := (of_decide_eq_true hp.2).2
    have hfile : FS.isFile (pre ++ fs) p = false := by
      unfold FS.isFile
      cases hl : FS.lookup (pre ++ fs) p with
      | none => rfl
      | some n =>
        have hmem := lookup_mem (pre ++ fs) p n hl
        rcases List.mem_append.mp hmem with h | h
        · have hn := hdir (p, n) h hpd
          dsimp only at hn
          subst hn
          rfl
        · have hex : FS.existsp fs p = true :=
            existsp_of_mem_map_fst fs p (List.mem_map_of_mem Prod.fst h)
          obtain ⟨e, he, he2⟩ := List.mem_map.mp hp.1
          exact absurd hex (by simp [he2 ▸ hfresh e he])
    rw [hfile]
    rfl
  rw [List.filter_eq_nil_iff.mpr (fun p hp => by simp [hA p hp]),
    List.nil_append]
  refine List.filter_congr ?_
  intro p hp
  rw [List.mem_filter] at hp
  have hex : FS.existsp fs p = true :=
    existsp_of_mem_map_fst fs p hp.1
  rw [isFile_append_fresh pre fs p hfresh hex]

theorem mem_matching_isFile (s : String) (d : Path) (fs : FS) (f : Path)
    (h : f ∈ matching_images_for_stem s d fs) :
    FS.isFile fs f = true := by
  unfold matching_images_for_stem at h
  by_cases hd : FS.isDir fs d = true
  · rw [if_pos hd] at h
    have h2 := (List.mem_filter.mp h).2
    rw [Bool.and_eq_true] at h2
    exact h2.1
  · rw [if_neg hd] at h
    exact absurd h (List.not_mem_nil f)

/-! ## Delete: run decomposition and claim theorems -/

theorem delete_run_eq (env : DelEnv) (selected : Path) (paths : AppPaths)
    (fs : FS) (fn : String)
    (hfn : Path.fileName selected = some fn) (hne : fn ≠ "")
    (hwm : FS.existsp fs (paths.ready ++ [fn]) = true) :
    delete_selected env selected paths fs =
      deleteMain env selected paths (strToLower (stemOf fn)) fs := by
  have hbn := baseName_of_fileName selected fn hfn
  have hs1 : deleteStep1 env selected paths (strToLower (stemOf fn)) fs =
      ⟨.ok (), fs, [], []⟩ := by
    unfold deleteStep1
    rw [hbn, if_pos hwm]
  simp [delete_selected, hfn, hne, hs1]

theorem deletionSet_eq (selected : Path) (paths : AppPaths) (fs : FS)
    (fn : String) (hfn : Path.fileName selected = some fn) :
    deletionSet selected paths fs =
      selected ::
        (match paths.publishing_images with
         | some pub_imgs =>
           matching_images_for_stem (strToLower (stemOf fn)) pub_imgs fs
         | none => []) := by
  simp [deletionSet, hfn]

theorem deletionSet_step1_stable (selected : Path) (paths : AppPaths)
    (pre fs : FS) (fn : String)
    (hfn : Path.fileName selected = some fn)
    (hfresh : ∀ e ∈ pre, FS.existsp fs e.1 = false)
    (hkind : ∀ e ∈ pre, e.2 = Node.dir ∨ e.1.dropLast = paths.ready ∨
      ∃ wi, paths.working_images = some wi ∧ e.1.dropLast = wi)
    (hsep : ∀ pi, paths.publishing_images = some pi →
      FS.isDir fs pi = true ∧ pi ≠ paths.ready ∧
        ∀ wi, paths.working_images = some wi → pi ≠ wi) :
    deletionSet selected paths (pre ++ fs) =
      deletionSet selected paths fs := by
  rw [deletionSet_eq selected paths (pre ++ fs) fn hfn,
    deletionSet_eq selected paths fs fn hfn]
  cases hpi : paths.publishing_images with
  | none => rfl
  | some pub_imgs =>
    dsimp only
    obtain ⟨hd, hsep2⟩ := hsep pub_imgs hpi
    have hdir : ∀ e ∈ pre, e.1.dropLast = pub_imgs → e.2 = Node.dir := by
      intro e he hdrop
      rcases hkind e he with h | h | h
      · exact h
      · exact absurd (hdrop.symm.trans h) hsep2.1
      · obtain ⟨wi, hwi, h2⟩ := h
        exact absurd (hdrop.symm.trans h2) (hsep2.2 wi hwi)
    rw [matching_append_fresh _ pub_imgs pre fs hd hfresh hdir]

theorem delete_run_ok (env : DelEnv) (selected : Path) (paths : AppPaths)
    (fs : FS) (fn : String)
    (hfn : Path.fileName selected = some fn) (hne : fn ≠ "")
    (hs1 : (deleteStep1 env selected paths (strToLower (stemOf fn)) fs).res =
      .ok ()) :
    delete_selected env selected paths fs =
      ⟨(deleteMain env selected paths (strToLower (stemOf fn))
          (deleteStep1 env selected paths (strToLower (stemOf fn)) fs).fs).res,
        (deleteMain env selected paths (strToLower (stemOf fn))
          (deleteStep1 env selected paths (strToLower (stemOf fn)) fs).fs).fs,
        (deleteStep1 env selected paths (strToLower (stemOf fn)) fs).tr ++
          (deleteMain env selected paths (strToLower (stemOf fn))
            (deleteStep1 env selected paths
              (strToLower (stemOf fn)) fs).fs).tr,
        (deleteMain env selected paths (strToLower (stemOf fn))
          (deleteStep1 env selected paths
            (strToLower (stemOf fn)) fs).fs).created⟩ := by
  unfold delete_selected
  rw [hfn]
  dsimp only
  rw [if_neg hne]
  rw [hs1]

theorem delete_run_err (env : DelEnv) (selected : Path) (paths : AppPaths)
    (fs : FS) (fn : String) (e : String)
    (hfn : Path.fileName selected = some fn) (hne : fn ≠ "")
    (hs1 : (deleteStep1 env selected paths (strToLower (stemOf fn)) fs).res =
      .error e) :
    delete_selected env selected paths fs =
      ⟨.error e,
        (deleteStep1 env selected paths (strToLower (stemOf fn)) fs).fs,
        (deleteStep1 env selected paths (strToLower (stemOf fn)) fs).tr,
        (deleteStep1 env selected paths
          (strToLower (stemOf fn)) fs).created⟩ := by
  unfold delete_selected
  rw [hfn]
  dsimp only
  rw [if_neg hne]
  rw [hs1]

theorem step1_transfer (env : DelEnv) (selected : Path) (paths : AppPaths)
    (fs : FS) (fn : String)
    (hfn : Path.fileName selected = some fn)
    (hself : FS.isFile fs selected = true)
    (hsep : ∀ pi, paths.publishing_images = some pi →
      FS.isDir fs pi = true ∧ pi ≠ paths.ready ∧
        ∀ wi, paths.working_images = some wi → pi ≠ wi) :
    deletionSet selected paths
        (deleteStep1 env selected paths (strToLower (stemOf fn)) fs).fs =
      deletionSet selected paths fs ∧
    (∀ f ∈ deletionSet selected paths fs, FS.existsp fs f = true) ∧
    (∀ f ∈ deletionSet selected paths fs,
      FS.isFile (deleteStep1 env selected paths
          (strToLower (stemOf fn)) fs).fs f = true) ∧
    (∀ f ∈ deletionSet selected paths fs,
      FS.content (deleteStep1 env selected paths
          (strToLower (stemOf fn)) fs).fs f = FS.content fs f) ∧
    (∀ q, FS.existsp fs q = true →
      FS.existsp (deleteStep1 env selected paths
          (strToLower (stemOf fn)) fs).fs q = true) := by
  obtain ⟨pre, hfs, hnd1, hfr, hkind, -, -, -⟩ :=
    deleteStep1_fresh env selected paths (strToLower (stemOf fn)) fs
  have hdsetf : ∀ f ∈ deletionSet selected paths fs,
      FS.isFile fs f = true := by
    intro f hf
    rw [deletionSet_eq selected paths fs fn hfn] at hf
    rcases List.mem_cons.mp hf with h | h
    · rw [h]
      exact hself
    · cases hpi : paths.publishing_images with
      | none =>
        rw [hpi] at h
        exact absurd h (List.not_mem_nil f)
      | some pub_imgs =>
        rw [hpi] at h
        exact mem_matching_isFile _ pub_imgs fs f h
  have hdsetex : ∀ f ∈ deletionSet selected paths fs,
      FS.existsp fs f = true :=
    fun f hf => isFile_existsp fs f (hdsetf f hf)
  refine ⟨?_, hdsetex, ?_, ?_, ?_⟩
  · rw [hfs]
    exact deletionSet_step1_stable selected paths pre fs fn hfn hfr hkind hsep
  · intro f hf
    rw [hfs, isFile_append_fresh pre fs f hfr (hdsetex f hf)]
    exact hdsetf f hf
  · intro f hf
    rw [hfs]
    exact content_append_fresh pre fs f hfr (hdsetex f hf)
  · intro q hq
    rw [hfs]
    exact existsp_append_mono pre fs q hq

theorem deleteMain_declined (env : DelEnv) (selected : Path)
    (paths : AppPaths) (fs : FS) (fn : String)
    (hfn : Path.fileName selected = some fn)
    (hconf : env.confirmDelete = false)
    (hnf : ∀ f ∈ deletionSet selected paths fs,
      env.flt.copyFails f (env.tmp ++ [Path.baseName f]) = false)
    (hfl : ∀ f ∈ deletionSet selected paths fs,
      FS.isFile fs f = true ∨ FS.existsp (FS.mkdirAll fs env.tmp) f = false)
    (hsrc : ∀ f ∈ deletionSet selected paths fs, f.dropLast ≠ env.tmp) :
    (deleteMain env selected paths (strToLower (stemOf fn)) fs).res =
      .ok () ∧
    (((deletionSet selected paths fs).map Path.baseName).Nodup →
      ∀ f ∈ deletionSet selected paths fs, FS.existsp fs f = true →
        FS.content (deleteMain env selected paths
          (strToLower (stemOf fn)) fs).fs
          (env.tmp ++ [Path.baseName f]) = FS.content fs f) ∧
    (∀ q, FS.existsp fs q = true →
      FS.existsp (deleteMain env selected paths
        (strToLower (stemOf fn)) fs).fs q = true) ∧
    (∀ q, q ∉ (deletionSet selected paths fs).map
        (fun g => env.tmp ++ [Path.baseName g]) →
      FS.content (deleteMain env selected paths
        (strToLower (stemOf fn)) fs).fs q = FS.content fs q) := by
  unfold deleteMain
  rw [← deletionSet_eq selected paths fs fn hfn]
  obtain ⟨hb1, hb2, hb3, hb4, hb5⟩ :=
    backup_ok env.flt env.tmp (deletionSet selected paths fs) fs hnf hfl hsrc
  dsimp only
  rw [hb1]
  dsimp only
  rw [if_pos hconf]
  unfold cleanup_and_abort
  dsimp only
  exact ⟨rfl, fun hnd f hf he => hb4 hnd f hf he, fun q hq => hb5 q hq,
    fun q hq => (hb3 q hq).1⟩

/-- C6 (amended).  When the user declines the deletion confirmation, Delete
returns a non-error "aborted" outcome, but the temp-directory backups are
NOT removed (`cleanup_and_abort` is a no-op; the backup location is
reported to the user): every temp backup of an existing deletion-set file
is still present with the original content, nothing that existed before the
run has been removed, and when step 1 made a working-area backup (working
markdown absent, backup confirmed) that copy is also kept with the selected
file's content. -/
theorem delete_declined_keeps_backups (env : DelEnv) (selected : Path)
    (paths : AppPaths) (fs : FS) (fn : String)
    (hfn : Path.fileName selected = some fn) (hne : fn ≠ "")
    (hs1 : (deleteStep1 env selected paths (strToLower (stemOf fn)) fs).res =
      .ok ())
    (hconf : env.confirmDelete = false)
    (hself : FS.isFile fs selected = true)
    (hsep : ∀ pi, paths.publishing_images = some pi →
      FS.isDir fs pi = true ∧ pi ≠ paths.ready ∧
        ∀ wi, paths.working_images = some wi → pi ≠ wi)
    (hnf : ∀ f ∈ deletionSet selected paths fs,
      env.flt.copyFails f (env.tmp ++ [Path.baseName f]) = false)
    (hsrc : ∀ f ∈ deletionSet selected paths fs, f.dropLast ≠ env.tmp)
    (hrt : paths.ready ≠ env.tmp) :
    (delete_selected env selected paths fs).res = .ok () ∧
    (((deletionSet selected paths fs).map Path.baseName).Nodup →
      ∀ f ∈ deletionSet selected paths fs, FS.existsp fs f = true →
        FS.content (delete_selected env selected paths fs).fs
          (env.tmp ++ [Path.baseName f]) = FS.content fs f) ∧
    (∀ q, FS.existsp fs q = true →
      FS.existsp (delete_selected env selected paths fs).fs q = true) ∧
    (env.confirmBackup = true →
      FS.existsp fs (paths.ready ++ [fn]) = false →
      FS.content (delete_selected env selected paths fs).fs
        (paths.ready ++ [fn]) = FS.content fs selected) := by
  rw [delete_run_ok env selected paths fs fn hfn hne hs1]
  obtain ⟨hstable, hdsetex, hdsetfS, hdsetcS, hmono⟩ :=
    step1_transfer env selected paths fs fn hfn hself hsep
  obtain ⟨m1, m2, m3, m4⟩ := deleteMain_declined env selected paths
    (deleteStep1 env selected paths (strToLower (stemOf fn)) fs).fs fn hfn
    hconf
    (by rw [hstable]; exact hnf)
    (by
      rw [hstable]
      intro f hf
      exact Or.inl (hdsetfS f hf))
    (by rw [hstable]; exact hsrc)
  rw [hstable] at m2 m4
  have hbn := baseName_of_fileName selected fn hfn
  refine ⟨m1, ?_, ?_, ?_⟩
  · intro hnd f hf hex
    have h2 := m2 hnd f hf (hmono f hex)
    rw [h2]
    exact hdsetcS f hf
  · intro q hq
    exact m3 q (hmono q hq)
  · intro hcb hnoex
    obtain ⟨pre, hfs, hnd1, hfr, hkind, -, -, hF⟩ :=
      deleteStep1_fresh env selected paths (strToLower (stemOf fn)) fs
    have hF2 := hF hs1 hcb (by rw [hbn]; exact hnoex)
    rw [hbn] at hF2
    have hq : (paths.ready ++ [fn]) ∉ (deletionSet selected paths fs).map
        (fun g => env.tmp ++ [Path.baseName g]) := by
      intro hmem
      obtain ⟨g, -, hge⟩ := List.mem_map.mp hmem
      exact slot_ne_of_dropLast_ne env.tmp (paths.ready ++ [fn])
        (Path.baseName g) (by rw [List.dropLast_concat]; exact hrt) hge.symm
    have h4 := m4 (paths.ready ++ [fn]) hq
    rw [h4]
    exact hF2

/-- Witness for C6 (amended) at a concrete declined run in which step 1 DID
make the working-area backup (the working markdown is absent): the run
succeeds, the temp backup of the selected file is kept, and so is the
working-area copy made in step 1. -/
theorem delete_declined_keeps_backups_witness :
    (delete_selected ⟨⟨fun _ _ => false, fun _ => false⟩, true, false, none,
        ["tmp"]⟩ ["p", "a.md"] ⟨["w"], ["p"], some ["wi"], some ["pi"]⟩
        [(["w"], Node.dir), (["p"], Node.dir), (["pi"], Node.dir),
         (["p", "a.md"], Node.file "h"),
         (["pi", "a.png"], Node.file "i")]).res = .ok () ∧
    FS.content (delete_selected ⟨⟨fun _ _ => false, fun _ => false⟩, true,
        false, none, ["tmp"]⟩ ["p", "a.md"]
        ⟨["w"], ["p"], some ["wi"], some ["pi"]⟩
        [(["w"], Node.dir), (["p"], Node.dir), (["pi"], Node.dir),
         (["p", "a.md"], Node.file "h"),
         (["pi", "a.png"], Node.file "i")]).fs (["tmp"] ++ ["a.md"]) =
      some "h" ∧
    FS.content (delete_selected ⟨⟨fun _ _ => false, fun _ => false⟩, true,
        false, none, ["tmp"]⟩ ["p", "a.md"]
        ⟨["w"], ["p"], some ["wi"], some ["pi"]⟩
        [(["w"], Node.dir), (["p"], Node.dir), (["pi"], Node.dir),
         (["p", "a.md"], Node.file "h"),
         (["pi", "a.png"], Node.file "i")]).fs (["w"] ++ ["a.md"]) =
      some "h" := by
  have h := delete_declined_keeps_backups
    ⟨⟨fun _ _ => false, fun _ => false⟩, true, false, none, ["tmp"]⟩
    ["p", "a.md"] ⟨["w"], ["p"], some ["wi"], some ["pi"]⟩
    [(["w"], Node.dir), (["p"], Node.dir), (["pi"], Node.dir),
     (["p", "a.md"], Node.file "h"),
     (["pi", "a.png"], Node.file "i")]
    "a.md" rfl (by decide) rfl rfl (by decide)
    (by
      intro pi hpi
      injection hpi with h1
      subst h1
      refine ⟨by decide, by decide, ?_⟩
      intro wi hwi
      injection hwi with h2
      subst h2
      decide)
    (fun f _ => rfl) (by decide) (by decide)
  refine ⟨h.1, ?_, ?_⟩
  · have h2 := h.2.1 (by decide) ["p", "a.md"] (by decide) (by decide)
    exact h2.trans (by decide)
  · have h4 := h.2.2.2 rfl (by decide)
    exact h4.trans (by decide)

/-- C6 counterexample: on a declined confirmation with no faults at all, the
temp backup file still exists after the call — a best-effort removal of the
temp backups (which nothing obstructs here) would have deleted it, so the
claim's "temp-directory backups are best-effort removed" is false on the
code (`cleanup_and_abort` is a no-op). -/
theorem delete_declined_counterexample :
    (delete_selected ⟨⟨fun _ _ => false, fun _ => false⟩, true, false, none,
        ["tmp"]⟩ ["p", "a.md"] ⟨["w"], ["p"], some ["wi"], some ["pi"]⟩
        [(["w"], Node.dir), (["p"], Node.dir), (["pi"], Node.dir),
         (["w", "a.md"], Node.file "h"), (["p", "a.md"], Node.file "h"),
         (["pi", "a.png"], Node.file "i")]).res = .ok () ∧
    FS.existsp (delete_selected ⟨⟨fun _ _ => false, fun _ => false⟩, true,
        false, none, ["tmp"]⟩ ["p", "a.md"]
        ⟨["w"], ["p"], some ["wi"], some ["pi"]⟩
        [(["w"], Node.dir), (["p"], Node.dir), (["pi"], Node.dir),
         (["w", "a.md"], Node.file "h"), (["p", "a.md"], Node.file "h"),
         (["pi", "a.png"], Node.file "i")]).fs ["tmp", "a.md"] = true := by
  constructor
  · rfl
  · decide

theorem deleteMain_backup_first (env : DelEnv) (selected : Path)
    (paths : AppPaths) (fs : FS) (fn : String)
    (hfn : Path.fileName selected = some fn) :
    (∀ p ∈ deletionSet selected paths fs,
        FsOp.remove p ∉ (deleteMain env selected paths
          (strToLower (stemOf fn)) fs).tr) ∨
      ∃ tr1 tr2, (deleteMain env selected paths
          (strToLower (stemOf fn)) fs).tr = tr1 ++ tr2 ∧
        (∀ p, FsOp.remove p ∉ tr1) ∧ FsOp.mkdirAll env.tmp ∈ tr1 ∧
        ∀ f ∈ deletionSet selected paths fs, FS.existsp fs f = true →
          FsOp.copy f (env.tmp ++ [Path.baseName f]) ∈ tr1 := by
  unfold deleteMain
  rw [← deletionSet_eq selected paths fs fn hfn]
  dsimp only
  have hbtr : ∀ p, FsOp.remove p ∉
      (backup_files_to_temp env.flt env.tmp
        (deletionSet selected paths fs) fs).tr := by
    intro p hp
    unfold backup_files_to_temp at hp
    dsimp only at hp
    rcases List.mem_cons.mp hp with h | h
    · exact FsOp.noConfusion h
    · rw [backupLoop_tr] at h
      exact remove_not_mem_copy_map _ p h
  cases hres : (backup_files_to_temp env.flt env.tmp
      (deletionSet selected paths fs) fs).res with
  | error e =>
    dsimp only
    exact Or.inl (fun p _ => hbtr p)
  | ok u =>
    dsimp only
    have hcomplete : ∀ f ∈ deletionSet selected paths fs,
        FS.existsp fs f = true →
        FsOp.copy f (env.tmp ++ [Path.baseName f]) ∈
          (backup_files_to_temp env.flt env.tmp
            (deletionSet selected paths fs) fs).tr := by
      intro f hf hex
      have hresL : (backupLoop env.flt env.tmp
          (deletionSet selected paths fs) (FS.mkdirAll fs env.tmp)).res =
          .ok () := by
        unfold backup_files_to_temp at hres
        dsimp only at hres
        cases u
        exact hres
      unfold backup_files_to_temp
      dsimp only
      refine List.mem_cons_of_mem _ ?_
      rw [backupLoop_tr]
      exact List.mem_map.mpr
        ⟨(f, env.tmp ++ [Path.baseName f]),
          backupLoop_complete env.flt env.tmp _ _ f hresL hf
            (existsp_mkdirAll_mono fs env.tmp f hex), rfl⟩
    have hmk : FsOp.mkdirAll env.tmp ∈
        (backup_files_to_temp env.flt env.tmp
          (deletionSet selected paths fs) fs).tr := by
      unfold backup_files_to_temp
      dsimp only
      exact List.mem_cons_self _ _
    by_cases hcf : env.confirmDelete = false
    · rw [if_pos hcf]
      unfold cleanup_and_abort
      dsimp only
      refine Or.inl (fun p _ hmem => ?_)
      rw [List.append_nil] at hmem
      exact hbtr p hmem
    · rw [if_neg hcf]
      split
      · exact Or.inr ⟨_, _, rfl, hbtr, hmk, hcomplete⟩
      · split
        · exact Or.inr ⟨_, _, rfl, hbtr, hmk, hcomplete⟩
        · split
          · right
            rw [List.append_assoc, List.append_assoc]
            exact ⟨_, _, rfl, hbtr, hmk, hcomplete⟩
          · right
            rw [List.append_assoc]
            exact ⟨_, _, rfl, hbtr, hmk, hcomplete⟩

theorem deleteMain_removal_fail (env : DelEnv) (selected : Path)
    (paths : AppPaths) (fs : FS) (fn : String)
    (hfn : Path.fileName selected = some fn)
    (hconf : env.confirmDelete = true)
    (hnf : ∀ s d, env.flt.copyFails s d = false)
    (hfl : ∀ f ∈ deletionSet selected paths fs,
      FS.isFile fs f = true ∨ FS.existsp (FS.mkdirAll fs env.tmp) f = false)
    (hfresh : ∀ f ∈ deletionSet selected paths fs,
      f.dropLast ≠ env.tmp ∧ f ≠ env.tmp)
    (hnd : ((deletionSet selected paths fs).map Path.baseName).Nodup)
    (hfail : ∃ f ∈ deletionSet selected paths fs,
      FS.isFile fs f = true ∧ env.flt.removeFails f = true) :
    (∃ e, (deleteMain env selected paths
      (strToLower (stemOf fn)) fs).res = .error e) ∧
    ∀ f ∈ deletionSet selected paths fs,
      FS.content (deleteMain env selected paths
        (strToLower (stemOf fn)) fs).fs f = FS.content fs f := by
  unfold deleteMain
  rw [← deletionSet_eq selected paths fs fn hfn]
  dsimp only
  have hbtr : ∀ p, FsOp.remove p ∉
      (backup_files_to_temp env.flt env.tmp
        (deletionSet selected paths fs) fs).tr := by
    intro p hp
    unfold backup_files_to_temp at hp
    dsimp only at hp
    rcases List.mem_cons.mp hp with h | h
    · exact FsOp.noConfusion h
    · rw [backupLoop_tr] at h
      exact remove_not_mem_copy_map _ p h
  obtain ⟨hb1, hb2, hb3, hb4, hb5⟩ :=
    backup_ok env.flt env.tmp (deletionSet selected paths fs) fs
      (fun f _ => hnf f (env.tmp ++ [Path.baseName f])) hfl
      (fun f hf => (hfresh f hf).1)
  rw [hb1]
  dsimp only
  rw [if_neg (by simp [hconf])]
  have hnotslot : ∀ f ∈ deletionSet selected paths fs,
      f ∉ (deletionSet selected paths fs).map
        (fun g => env.tmp ++ [Path.baseName g]) := by
    intro f hf hmem
    obtain ⟨g, hg, hge⟩ := List.mem_map.mp hmem
    exact (hfresh f hf).1 (by rw [← hge, List.dropLast_concat])
  have hslot_not_td : ∀ s : String,
      env.tmp ++ [s] ∉ deletionSet selected paths fs := by
    intro s hmem
    exact (hfresh _ hmem).1 (List.dropLast_concat)
  have hisfile_of_ex : ∀ f ∈ deletionSet selected paths fs,
      FS.existsp fs f = true → FS.isFile fs f = true := by
    intro f hf hex
    rcases hfl f hf with h | h
    · exact h
    · exact absurd (existsp_mkdirAll_mono fs env.tmp f hex)
        (by simp [h])
  have hgood : ∀ p ∈ deletionSet selected paths fs,
      FS.isFile (backup_files_to_temp env.flt env.tmp
        (deletionSet selected paths fs) fs).fs p = true ∨
      FS.existsp (backup_files_to_temp env.flt env.tmp
        (deletionSet selected paths fs) fs).fs p = false := by
    intro p hp
    obtain ⟨hcp, hep⟩ := hb3 p (hnotslot p hp)
    rcases hfl p hp with h | h
    · left
      obtain ⟨c, hc⟩ := content_isSome_of_isFile fs p h
      exact isFile_of_content _ p c (by rw [hcp]; exact hc)
    · right
      rw [hep]
      exact h
  have hfailB : ∃ p ∈ deletionSet selected paths fs,
      FS.isFile (backup_files_to_temp env.flt env.tmp
        (deletionSet selected paths fs) fs).fs p = true ∧
      env.flt.removeFails p = true := by
    obtain ⟨w, hw, hwf, hwr⟩ := hfail
    obtain ⟨hcp, -⟩ := hb3 w (hnotslot w hw)
    obtain ⟨c, hc⟩ := content_isSome_of_isFile fs w hwf
    exact ⟨w, hw, isFile_of_content _ w c (by rw [hcp]; exact hc), hwr⟩
  obtain ⟨fsX, inv1, inv2, ⟨e, herr⟩, hfs⟩ :=
    deleteLoop_fail env.flt
      (backup_files_to_temp env.flt env.tmp
        (deletionSet selected paths fs) fs).pairs env.tmp
      (deletionSet selected paths fs)
      (backup_files_to_temp env.flt env.tmp
        (deletionSet selected paths fs) fs).fs hgood hfailB
  rw [herr]
  dsimp only
  refine ⟨⟨e, rfl⟩, ?_⟩
  have hpairsmem : ∀ pr ∈ (backup_files_to_temp env.flt env.tmp
      (deletionSet selected paths fs) fs).pairs,
      ∃ f, f ∈ deletionSet selected paths fs ∧ FS.existsp fs f = true ∧
        pr = (f, env.tmp ++ [Path.baseName f]) := by
    intro pr hpr
    rw [hb2] at hpr
    obtain ⟨f, hf, hfe⟩ := List.mem_map.mp hpr
    rw [List.mem_filter] at hf
    exact ⟨f, hf.1, hf.2, hfe.symm⟩
  have hslotX : ∀ f ∈ deletionSet selected paths fs,
      FS.existsp fs f = true →
      FS.content fsX (env.tmp ++ [Path.baseName f]) = FS.content fs f := by
    intro f hf hex
    obtain ⟨hcq, -⟩ := inv1 (env.tmp ++ [Path.baseName f])
      (hslot_not_td (Path.baseName f))
    rw [hcq]
    exact hb4 hnd f hf hex
  obtain ⟨rres, rpres, rrest⟩ := restore_ok env.flt
    (backup_files_to_temp env.flt env.tmp
      (deletionSet selected paths fs) fs).pairs fsX
    (by
      intro pr hpr
      obtain ⟨f, hf, hex, hpe⟩ := hpairsmem pr hpr
      subst hpe
      dsimp only
      obtain ⟨c, hc⟩ := content_isSome_of_isFile fs f (hisfile_of_ex f hf hex)
      exact isFile_of_content _ _ c (by rw [hslotX f hf hex]; exact hc))
    (fun pr _ => hnf pr.2 pr.1)
    (by
      intro pr hpr pr2 hpr2
      obtain ⟨f, hf, -, hpe⟩ := hpairsmem pr hpr
      obtain ⟨g, -, -, hpe2⟩ := hpairsmem pr2 hpr2
      subst hpe
      subst hpe2
      exact slot_ne_of_dropLast_ne env.tmp f _ (hfresh f hf).1)
    (by
      rw [hb2, List.map_map]
      have : (Prod.fst ∘ fun f => (f, env.tmp ++ [Path.baseName f])) =
          fun f : Path => f := rfl
      rw [this, List.map_id']
      exact ((hnd.of_map).filter _))
  rw [hfs]
  unfold restore_and_cleanup
  dsimp only
  rw [rres]
  dsimp only
  intro f hf
  obtain ⟨hfr1, hfr2⟩ := hfresh f hf
  obtain ⟨hcl, -⟩ := cleanup_outside env.flt
    (restore_from_backups env.flt
      (backup_files_to_temp env.flt env.tmp
        (deletionSet selected paths fs) fs).pairs fsX).fs
    env.tmp f hfr1 hfr2
  rw [hcl]
  by_cases hexf : FS.existsp fs f = true
  · have hpr : (f, env.tmp ++ [Path.baseName f]) ∈
        (backup_files_to_temp env.flt env.tmp
          (deletionSet selected paths fs) fs).pairs := by
      rw [hb2]
      exact List.mem_map.mpr ⟨f, List.mem_filter.mpr ⟨hf, hexf⟩, rfl⟩
    have := rrest (f, env.tmp ++ [Path.baseName f]) hpr
    dsimp only at this
    rw [this]
    exact hslotX f hf hexf
  · have hnotor : f ∉ ((backup_files_to_temp env.flt env.tmp
        (deletionSet selected paths fs) fs).pairs).map Prod.fst := by
      intro hmem
      rw [hb2, List.map_map] at hmem
      have hid : (Prod.fst ∘ fun g => (g, env.tmp ++ [Path.baseName g])) =
          fun g : Path => g := rfl
      rw [hid, List.map_id'] at hmem
      rw [List.mem_filter] at hmem
      exact hexf hmem.2
    obtain ⟨hcq, -⟩ := rpres f hnotor
    rw [hcq]
    rcases inv2 f with ⟨hc2, -⟩ | hc2
    · rw [hc2]
      obtain ⟨hcb, -⟩ := hb3 f (hnotslot f hf)
      exact hcb
    · rw [hc2, content_none_of_not_existsp fs f (by simpa using hexf)]

/-- C2.  Part 1 (temporal, no fault assumptions beyond the selected file
being a regular file and the configured directories being distinct trees):
in every Delete run — including runs in which step 1 makes a working-area
backup, and runs in which step 1 fails — either no deletion-set file is
ever removed, or the trace splits into a prefix containing no removal at
all — in which the temp directory is created and every then-existing
deletion-set file is copied into it — followed by the rest of the run.
Part 2: when a removal fails partway (fault oracle), the run fails and
every deletion-set file's content is intact or restored byte-for-byte
from the temp backup (assuming copies themselves are not faulted). -/
theorem delete_backup_before_removal (env : DelEnv) (selected : Path)
    (paths : AppPaths) (fs : FS) (fn : String)
    (hfn : Path.fileName selected = some fn) (hne : fn ≠ "")
    (hself : FS.isFile fs selected = true)
    (hsep : ∀ pi, paths.publishing_images = some pi →
      FS.isDir fs pi = true ∧ pi ≠ paths.ready ∧
        ∀ wi, paths.working_images = some wi → pi ≠ wi) :
    ((∀ p ∈ deletionSet selected paths fs,
        FsOp.remove p ∉ (delete_selected env selected paths fs).tr) ∨
      ∃ tr1 tr2, (delete_selected env selected paths fs).tr = tr1 ++ tr2 ∧
        (∀ p, FsOp.remove p ∉ tr1) ∧ FsOp.mkdirAll env.tmp ∈ tr1 ∧
        ∀ f ∈ deletionSet selected paths fs, FS.existsp fs f = true →
          FsOp.copy f (env.tmp ++ [Path.baseName f]) ∈ tr1) ∧
    (env.confirmDelete = true →
      (∀ s d, env.flt.copyFails s d = false) →
      (∀ f ∈ deletionSet selected paths fs,
        f.dropLast ≠ env.tmp ∧ f ≠ env.tmp) →
      ((deletionSet selected paths fs).map Path.baseName).Nodup →
      (∃ f ∈ deletionSet selected paths fs,
        FS.isFile fs f = true ∧ env.flt.removeFails f = true) →
      (∃ e, (delete_selected env selected paths fs).res = .error e) ∧
      ∀ f ∈ deletionSet selected paths fs,
        FS.content (delete_selected env selected paths fs).fs f =
          FS.content fs f) := by
  obtain ⟨pre, hfs, hnd1, hfr, hkind, hrmf, hnormv, -⟩ :=
    deleteStep1_fresh env selected paths (strToLower (stemOf fn)) fs
  obtain ⟨hstable, hdsetex, hdsetfS, hdsetcS, hmono⟩ :=
    step1_transfer env selected paths fs fn hfn hself hsep
  constructor
  · -- Part 1
    cases hs1res : (deleteStep1 env selected paths
        (strToLower (stemOf fn)) fs).res with
    | error e =>
      rw [delete_run_err env selected paths fs fn e hfn hne hs1res]
      refine Or.inl ?_
      intro p hp hmem
      dsimp only at hmem
      exact absurd (hdsetex p hp) (by simp [hrmf p hmem])
    | ok u =>
      cases u
      rw [delete_run_ok env selected paths fs fn hfn hne hs1res]
      rcases deleteMain_backup_first env selected paths
          (deleteStep1 env selected paths (strToLower (stemOf fn)) fs).fs
          fn hfn with h | ⟨tr1, tr2, htr, hnr1, hmk1, hcp1⟩
      · rw [hstable] at h
        refine Or.inl ?_
        intro p hp hmem
        dsimp only at hmem
        rcases List.mem_append.mp hmem with h2 | h2
        · exact hnormv hs1res p h2
        · exact h p hp h2
      · rw [hstable] at hcp1
        refine Or.inr ⟨(deleteStep1 env selected paths
            (strToLower (stemOf fn)) fs).tr ++ tr1, tr2, ?_, ?_, ?_, ?_⟩
        · dsimp only
          rw [htr, List.append_assoc]
        · intro p hp2
          rcases List.mem_append.mp hp2 with h2 | h2
          · exact hnormv hs1res p h2
          · exact hnr1 p h2
        · exact List.mem_append.mpr (Or.inr hmk1)
        · intro f hf hex
          exact List.mem_append.mpr (Or.inr (hcp1 f hf (hmono f hex)))
  · -- Part 2
    intro hconf hnf hfresh hnd2 hfail
    cases hs1res : (deleteStep1 env selected paths
        (strToLower (stemOf fn)) fs).res with
    | error e =>
      rw [delete_run_err env selected paths fs fn e hfn hne hs1res]
      refine ⟨⟨e, rfl⟩, ?_⟩
      intro f hf
      dsimp only
      exact hdsetcS f hf
    | ok u =>
      cases u
      rw [delete_run_ok env selected paths fs fn hfn hne hs1res]
      obtain ⟨⟨e, herr⟩, hcont⟩ := deleteMain_removal_fail env selected paths
        (deleteStep1 env selected paths (strToLower (stemOf fn)) fs).fs
        fn hfn hconf hnf
        (by
          rw [hstable]
          intro f hf
          exact Or.inl (hdsetfS f hf))
        (by rw [hstable]; exact hfresh)
        (by rw [hstable]; exact hnd2)
        (by
          rw [hstable]
          obtain ⟨w, hw, hwf, hwr⟩ := hfail
          exact ⟨w, hw, hdsetfS w hw, hwr⟩)
      rw [hstable] at hcont
      refine ⟨⟨e, herr⟩, ?_⟩
      intro f hf
      dsimp only
      rw [hcont f hf]
      exact hdsetcS f hf

/-- Witness for C2 at a concrete run whose removal of the selected file is
faulted: the run fails and the file's content is intact afterwards. -/
theorem delete_backup_before_removal_witness :
    (∃ e, (delete_selected
        ⟨⟨fun _ _ => false, fun p => p == ["p", "a.md"]⟩, true, true, none,
          ["tmp"]⟩ ["p", "a.md"] ⟨["w"], ["p"], some ["wi"], some ["pi"]⟩
        [(["w"], Node.dir), (["p"], Node.dir), (["pi"], Node.dir),
         (["w", "a.md"], Node.file "h"), (["p", "a.md"], Node.file "h"),
         (["pi", "a.png"], Node.file "i")]).res = .error e) ∧
    FS.content (delete_selected
        ⟨⟨fun _ _ => false, fun p => p == ["p", "a.md"]⟩, true, true, none,
          ["tmp"]⟩ ["p", "a.md"] ⟨["w"], ["p"], some ["wi"], some ["pi"]⟩
        [(["w"], Node.dir), (["p"], Node.dir), (["pi"], Node.dir),
         (["w", "a.md"], Node.file "h"), (["p", "a.md"], Node.file "h"),
         (["pi", "a.png"], Node.file "i")]).fs ["p", "a.md"] = some "h" := by
  have h := (delete_backup_before_removal
    ⟨⟨fun _ _ => false, fun p => p == ["p", "a.md"]⟩, true, true, none,
      ["tmp"]⟩ ["p", "a.md"] ⟨["w"], ["p"], some ["wi"], some ["pi"]⟩
    [(["w"], Node.dir), (["p"], Node.dir), (["pi"], Node.dir),
     (["w", "a.md"], Node.file "h"), (["p", "a.md"], Node.file "h"),
     (["pi", "a.png"], Node.file "i")]
    "a.md" rfl (by decide) (by decide)
    (by
      intro pi hpi
      injection hpi with h1
      subst h1
      refine ⟨by decide, by decide, ?_⟩
      intro wi hwi
      injection hwi with h2
      subst h2
      decide)).2
    rfl (fun _ _ => rfl) (by decide) (by decide) (by decide)
  refine ⟨h.1, ?_⟩
  have h2 := h.2 ["p", "a.md"] (by decide)
  exact h2.trans (by decide)

theorem deleteMain_git_fail (env : DelEnv) (selected : Path)
    (paths : AppPaths) (fs : FS) (fn : String) (e : String)
    (hfn : Path.fileName selected = some fn)
    (hconf : env.confirmDelete = true)
    (hgit : env.gitResult = some e)
    (hpub : paths.published ≠ [])
    (hnfb : ∀ f ∈ deletionSet selected paths fs,
      env.flt.copyFails f (env.tmp ++ [Path.baseName f]) = false)
    (hfl : ∀ f ∈ deletionSet selected paths fs,
      FS.isFile fs f = true ∨ FS.existsp (FS.mkdirAll fs env.tmp) f = false)
    (hfresh : ∀ f ∈ deletionSet selected paths fs,
      f.dropLast ≠ env.tmp ∧ f ≠ env.tmp)
    (hnd : ((deletionSet selected paths fs).map Path.baseName).Nodup)
    (hnorem : ∀ f ∈ deletionSet selected paths fs,
      env.flt.removeFails f = false) :
    (deleteMain env selected paths (strToLower (stemOf fn)) fs).res =
      .error e ∧
    ((∀ f ∈ deletionSet selected paths fs,
        env.flt.copyFails (env.tmp ++ [Path.baseName f]) f = false) →
      ∀ f ∈ deletionSet selected paths fs,
        FS.content (deleteMain env selected paths
          (strToLower (stemOf fn)) fs).fs f = FS.content fs f) := by
  unfold deleteMain
  rw [← deletionSet_eq selected paths fs fn hfn]
  dsimp only
  obtain ⟨hb1, hb2, hb3, hb4, hb5⟩ :=
    backup_ok env.flt env.tmp (deletionSet selected paths fs) fs hnfb hfl
      (fun f hf => (hfresh f hf).1)
  rw [hb1]
  dsimp only
  rw [if_neg (by simp [hconf])]
  have hnotslot : ∀ f ∈ deletionSet selected paths fs,
      f ∉ (deletionSet selected paths fs).map
        (fun g => env.tmp ++ [Path.baseName g]) := by
    intro f hf hmem
    obtain ⟨g, hg, hge⟩ := List.mem_map.mp hmem
    exact (hfresh f hf).1 (by rw [← hge, List.dropLast_concat])
  have hslot_not_td : ∀ s : String,
      env.tmp ++ [s] ∉ deletionSet selected paths fs := by
    intro s hmem
    exact (hfresh _ hmem).1 (List.dropLast_concat)
  have hisfile_of_ex : ∀ f ∈ deletionSet selected paths fs,
      FS.existsp fs f = true → FS.isFile fs f = true := by
    intro f hf hex
    rcases hfl f hf with h | h
    · exact h
    · exact absurd (existsp_mkdirAll_mono fs env.tmp f hex) (by simp [h])
  have hgood : ∀ p ∈ deletionSet selected paths fs,
      FS.isFile (backup_files_to_temp env.flt env.tmp
        (deletionSet selected paths fs) fs).fs p = true ∨
      FS.existsp (backup_files_to_temp env.flt env.tmp
        (deletionSet selected paths fs) fs).fs p = false := by
    intro p hp
    obtain ⟨hcp, hep⟩ := hb3 p (hnotslot p hp)
    rcases hfl p hp with h | h
    · left
      obtain ⟨c, hc⟩ := content_isSome_of_isFile fs p h
      exact isFile_of_content _ p c (by rw [hcp]; exact hc)
    · right
      rw [hep]
      exact h
  obtain ⟨lres, lpres, lrem⟩ := deleteLoop_ok env.flt
    (backup_files_to_temp env.flt env.tmp
      (deletionSet selected paths fs) fs).pairs env.tmp
    (deletionSet selected paths fs)
    (backup_files_to_temp env.flt env.tmp
      (deletionSet selected paths fs) fs).fs hnorem hgood
  rw [lres]
  dsimp only
  obtain ⟨root, hroot⟩ :=
    Option.isSome_iff_exists.mp (get_site_root_domain.2 paths.published hpub)
  rw [hroot]
  dsimp only
  rw [hgit]
  dsimp only
  refine ⟨rfl, ?_⟩
  intro hnfr f hf
  have hpairsmem : ∀ pr ∈ (backup_files_to_temp env.flt env.tmp
      (deletionSet selected paths fs) fs).pairs,
      ∃ g, g ∈ deletionSet selected paths fs ∧ FS.existsp fs g = true ∧
        pr = (g, env.tmp ++ [Path.baseName g]) := by
    intro pr hpr
    rw [hb2] at hpr
    obtain ⟨g, hg, hge⟩ := List.mem_map.mp hpr
    rw [List.mem_filter] at hg
    exact ⟨g, hg.1, hg.2, hge.symm⟩
  have hslotL : ∀ g ∈ deletionSet selected paths fs,
      FS.existsp fs g = true →
      FS.content (deleteLoop env.flt
        (backup_files_to_temp env.flt env.tmp
          (deletionSet selected paths fs) fs).pairs env.tmp
        (deletionSet selected paths fs)
        (backup_files_to_temp env.flt env.tmp
          (deletionSet selected paths fs) fs).fs).fs
        (env.tmp ++ [Path.baseName g]) = FS.content fs g := by
    intro g hg hex
    obtain ⟨hcq, -⟩ := lpres (env.tmp ++ [Path.baseName g])
      (hslot_not_td (Path.baseName g))
    rw [hcq]
    exact hb4 hnd g hg hex
  obtain ⟨rres, rpres, rrest⟩ := restore_ok env.flt
    (backup_files_to_temp env.flt env.tmp
      (deletionSet selected paths fs) fs).pairs
    (deleteLoop env.flt
      (backup_files_to_temp env.flt env.tmp
        (deletionSet selected paths fs) fs).pairs env.tmp
      (deletionSet selected paths fs)
      (backup_files_to_temp env.flt env.tmp
        (deletionSet selected paths fs) fs).fs).fs
    (by
      intro pr hpr
      obtain ⟨g, hg, hex, hpe⟩ := hpairsmem pr hpr
      subst hpe
      dsimp only
      obtain ⟨c, hc⟩ := content_isSome_of_isFile fs g (hisfile_of_ex g hg hex)
      exact isFile_of_content _ _ c (by rw [hslotL g hg hex]; exact hc))
    (by
      intro pr hpr
      obtain ⟨g, hg, -, hpe⟩ := hpairsmem pr hpr
      subst hpe
      exact hnfr g hg)
    (by
      intro pr hpr pr2 hpr2
      obtain ⟨g, hg, -, hpe⟩ := hpairsmem pr hpr
      obtain ⟨g2, -, -, hpe2⟩ := hpairsmem pr2 hpr2
      subst hpe
      subst hpe2
      exact slot_ne_of_dropLast_ne env.tmp g _ (hfresh g hg).1)
    (by
      rw [hb2, List.map_map]
      have hid : (Prod.fst ∘ fun g => (g, env.tmp ++ [Path.baseName g])) =
          fun g : Path => g := rfl
      rw [hid, List.map_id']
      exact ((hnd.of_map).filter _))
  obtain ⟨hfr1, hfr2⟩ := hfresh f hf
  obtain ⟨hcl, -⟩ := cleanup_outside env.flt
    (restore_from_backups env.flt
      (backup_files_to_temp env.flt env.tmp
        (deletionSet selected paths fs) fs).pairs
      (deleteLoop env.flt
        (backup_files_to_temp env.flt env.tmp
          (deletionSet selected paths fs) fs).pairs env.tmp
        (deletionSet selected paths fs)
        (backup_files_to_temp env.flt env.tmp
          (deletionSet selected paths fs) fs).fs).fs).fs
    env.tmp f hfr1 hfr2
  rw [hcl]
  by_cases hexf : FS.existsp fs f = true
  · have hpr : (f, env.tmp ++ [Path.baseName f]) ∈
        (backup_files_to_temp env.flt env.tmp
          (deletionSet selected paths fs) fs).pairs := by
      rw [hb2]
      exact List.mem_map.mpr ⟨f, List.mem_filter.mpr ⟨hf, hexf⟩, rfl⟩
    have hre := rrest (f, env.tmp ++ [Path.baseName f]) hpr
    dsimp only at hre
    rw [hre]
    exact hslotL f hf hexf
  · have hnotor : f ∉ ((backup_files_to_temp env.flt env.tmp
        (deletionSet selected paths fs) fs).pairs).map Prod.fst := by
      intro hmem
      rw [hb2, List.map_map] at hmem
      have hid : (Prod.fst ∘ fun g => (g, env.tmp ++ [Path.baseName g])) =
          fun g : Path => g := rfl
      rw [hid, List.map_id'] at hmem
      rw [List.mem_filter] at hmem
      exact hexf hmem.2
    obtain ⟨hcq, -⟩ := rpres f hnotor
    rw [hcq, content_none_of_not_existsp _ f (lrem f hf),
      content_none_of_not_existsp fs f (by simpa using hexf)]

/-- C3.  When the git runner fails after Delete removed the deletion set
(the run reached the removal: step 1 succeeded, possibly after making its
working-area backup), the git error itself is returned — even if
restoration copies are faulted (restore trouble is not raised) — and, when
the restore copies are not faulted, every deletion-set file is back at its
original path with its original content before the error is returned. -/
theorem delete_git_failure_restores (env : DelEnv) (selected : Path)
    (paths : AppPaths) (fs : FS) (fn : String) (e : String)
    (hfn : Path.fileName selected = some fn) (hne : fn ≠ "")
    (hs1 : (deleteStep1 env selected paths (strToLower (stemOf fn)) fs).res =
      .ok ())
    (hconf : env.confirmDelete = true)
    (hgit : env.gitResult = some e)
    (hpub : paths.published ≠ [])
    (hself : FS.isFile fs selected = true)
    (hsep : ∀ pi, paths.publishing_images = some pi →
      FS.isDir fs pi = true ∧ pi ≠ paths.ready ∧
        ∀ wi, paths.working_images = some wi → pi ≠ wi)
    (hnfb : ∀ f ∈ deletionSet selected paths fs,
      env.flt.copyFails f (env.tmp ++ [Path.baseName f]) = false)
    (hfresh : ∀ f ∈ deletionSet selected paths fs,
      f.dropLast ≠ env.tmp ∧ f ≠ env.tmp)
    (hnd : ((deletionSet selected paths fs).map Path.baseName).Nodup)
    (hnorem : ∀ f ∈ deletionSet selected paths fs,
      env.flt.removeFails f = false) :
    (delete_selected env selected paths fs).res = .error e ∧
    ((∀ f ∈ deletionSet selected paths fs,
        env.flt.copyFails (env.tmp ++ [Path.baseName f]) f = false) →
      ∀ f ∈ deletionSet selected paths fs,
        FS.content (delete_selected env selected paths fs).fs f =
          FS.content fs f) := by
  rw [delete_run_ok env selected paths fs fn hfn hne hs1]
  obtain ⟨hstable, hdsetex, hdsetfS, hdsetcS, hmono⟩ :=
    step1_transfer env selected paths fs fn hfn hself hsep
  obtain ⟨hres, hrest⟩ := deleteMain_git_fail env selected paths
    (deleteStep1 env selected paths (strToLower (stemOf fn)) fs).fs fn e hfn
    hconf hgit hpub
    (by rw [hstable]; exact hnfb)
    (by
      rw [hstable]
      intro f hf
      exact Or.inl (hdsetfS f hf))
    (by rw [hstable]; exact hfresh)
    (by rw [hstable]; exact hnd)
    (by rw [hstable]; exact hnorem)
  rw [hstable] at hrest
  refine ⟨hres, ?_⟩
  intro hnfr f hf
  dsimp only
  rw [hrest hnfr f hf]
  exact hdsetcS f hf

/-- Witness for C3 at a concrete run with a failing push: the git error is
returned and the removed markdown is restored. -/
theorem delete_git_failure_restores_witness :
    (delete_selected ⟨⟨fun _ _ => false, fun _ => false⟩, true, true,
        some "git push failed: x", ["tmp"]⟩ ["p", "a.md"]
        ⟨["w"], ["p"], some ["wi"], some ["pi"]⟩
        [(["w"], Node.dir), (["p"], Node.dir), (["pi"], Node.dir),
         (["w", "a.md"], Node.file "h"), (["p", "a.md"], Node.file "h"),
         (["pi", "a.png"], Node.file "i")]).res =
      .error "git push failed: x" ∧
    FS.content (delete_selected ⟨⟨fun _ _ => false, fun _ => false⟩, true,
        true, some "git push failed: x", ["tmp"]⟩ ["p", "a.md"]
        ⟨["w"], ["p"], some ["wi"], some ["pi"]⟩
        [(["w"], Node.dir), (["p"], Node.dir), (["pi"], Node.dir),
         (["w", "a.md"], Node.file "h"), (["p", "a.md"], Node.file "h"),
         (["pi", "a.png"], Node.file "i")]).fs ["p", "a.md"] = some "h" := by
  have h := delete_git_failure_restores
    ⟨⟨fun _ _ => false, fun _ => false⟩, true, true,
      some "git push failed: x", ["tmp"]⟩ ["p", "a.md"]
    ⟨["w"], ["p"], some ["wi"], some ["pi"]⟩
    [(["w"], Node.dir), (["p"], Node.dir), (["pi"], Node.dir),
     (["w", "a.md"], Node.file "h"), (["p", "a.md"], Node.file "h"),
     (["pi", "a.png"], Node.file "i")]
    "a.md" "git push failed: x" rfl (by decide) rfl rfl rfl
    (by decide) (by decide)
    (by
      intro pi hpi
      injection hpi with h1
      subst h1
      refine ⟨by decide, by decide, ?_⟩
      intro wi hwi
      injection hwi with h2
      subst h2
      decide)
    (by decide) (by decide) (by decide) (by decide)
  refine ⟨h.1, ?_⟩
  have h2 := h.2 (by decide) ["p", "a.md"] (by decide)
  exact h2.trans (by decide)

/-- C5.  The source's `restore_and_cleanup(&backups, &backup_dir)?;` makes a
restoration failure during Delete's removal-failure path REPLACE the
removal error: at this concrete input, removing the selected file fails and
the restore copy is also faulted, and the returned error is exactly the
restore error — the removal error ("Failed to remove /p/a.md") is never
surfaced, contradicting the claim (and §7 of the spec, which the code's
other compensation paths do follow). -/
theorem delete_restore_failure_masks_removal_error :
    errOf (delete_selected
        ⟨⟨fun s _ => s == ["tmp", "a.md"], fun p => p == ["p", "a.md"]⟩,
          true, true, none, ["tmp"]⟩
        ["p", "a.md"] ⟨["w"], ["p"], some ["wi"], some ["pi"]⟩
        [(["w"], Node.dir), (["p"], Node.dir), (["pi"], Node.dir),
         (["w", "a.md"], Node.file "h"), (["p", "a.md"], Node.file "h"),
         (["pi", "a.png"], Node.file "i")]).res =
      some "Failed to restore /p/a.md" ∧
    errOf (delete_selected
        ⟨⟨fun s _ => s == ["tmp", "a.md"], fun p => p == ["p", "a.md"]⟩,
          true, true, none, ["tmp"]⟩
        ["p", "a.md"] ⟨["w"], ["p"], some ["wi"], some ["pi"]⟩
        [(["w"], Node.dir), (["p"], Node.dir), (["pi"], Node.dir),
         (["w", "a.md"], Node.file "h"), (["p", "a.md"], Node.file "h"),
         (["pi", "a.png"], Node.file "i")]).res ≠
      some ("Failed to remove " ++ Path.display ["p", "a.md"]) := by
  exact ⟨by decide, by decide⟩

end Nuch
